import Mathlib

/-!
# log-processor: the Kafka stream processor and the log service

A shallow embedding of `internal/kafka/kafka_processor.go` (`Processor.Start`) and
`internal/service/log_service.go` (`LogService.Process`).

* The body of the goroutine that `Start` launches for one message is the function
  `dispatch`: it returns the sequence of observable calls (events) the goroutine makes.
* `Start` itself (receive loop, semaphore channel, wait group, goroutines) is the step
  function `step` on `State`; every interleaving of the receive loop with the goroutines
  is a list of `Action`s.
* External collaborators (the Kafka reader, the Elasticsearch client, the clock, the
  cancellation of the context) are inputs: what they answer is supplied by the caller.
* Calls to the `log` package are not observable by the collaborators and are left out.
-/

namespace LogProcessor

/-! ## Go values -/

/-- Go `error` values that the code creates or compares against. -/
inductive Error where
  | EOF
  | Canceled
  | DeadlineExceeded
  | New (text : String)
  deriving DecidableEq, Repr

/-- Go `time.Duration`: a signed 64-bit count of nanoseconds. -/
abbrev Duration := Int

/-- Reduction of an integer into the range of a Go `int64` (two's complement). -/
def wrapInt64 (x : Int) : Int := (x + 2 ^ 63) % 2 ^ 64 - 2 ^ 63

/-- Go `a * b` on `time.Duration`. -/
def Duration.mul (a b : Duration) : Duration := wrapInt64 (a * b)

/-- Go `time.Millisecond`. -/
def Millisecond : Duration := 1000000

/-- Go `time.Second`. -/
def Second : Duration := 1000000000

/-- Go `time.Time`, as nanoseconds since the zero instant. -/
abbrev Time := Int

/-- Go `Time.IsZero`. -/
def Time.IsZero (t : Time) : Bool := t == 0

/-- What the code can observe of a `context.Context`: whether it is done
(`ctx.Err() != nil`) and the tightest timeout put on it. -/
structure Context where
  done : Bool
  timeout : Option Duration
  deriving DecidableEq, Repr

/-- Go `context.WithTimeout(parent, d)`: the child is done whenever the parent is. -/
def WithTimeout (parent : Context) (d : Duration) : Context :=
  { done := parent.done
    timeout := some (match parent.timeout with
      | none => d
      | some t => min t d) }

/-- The fields of `kafka.Message` that the processor reads. The Go conversion
`string(m.Key)` keeps the bytes, so keys and values are kept as strings. -/
structure Message where
  Key : String
  Value : String
  deriving DecidableEq, Repr

/-- The struct `service.Log`. -/
structure Log where
  ID : String := ""
  Timestamp : Time := 0
  Level : String := ""
  Message : String := ""
  Source : String := ""
  deriving DecidableEq, Repr

/-- One call `esClient.Index(ctx, index, id, body)`. -/
structure IndexCall where
  ctx : Context
  index : String
  id : String
  body : Log
  deriving DecidableEq, Repr

/-- The interface `ElasticSearchClient`, as far as `Process` uses it: what `Index`
answers to a call. -/
structure ElasticSearchClient where
  Index : Context → String → String → Log → Option Error

/-- The struct `LogService`. -/
structure LogService where
  esClient : ElasticSearchClient
  index : String

/-- The method `LogService.Process`; `now` is what `time.Now().UTC()` returns. The result
is the list of `Index` calls made and the returned error (`none` is `nil`). -/
def LogService.Process (s : LogService) (now : Time) (ctx : Context) (logEntry : Log) :
    List IndexCall × Option Error :=
  if logEntry.ID == "" || logEntry.Message == "" then
    ([], some (Error.New "invalid log: empty ID or message"))
  else
    let logEntry := if logEntry.Timestamp.IsZero then { logEntry with Timestamp := now } else logEntry
    match s.esClient.Index ctx s.index logEntry.ID logEntry with
    | some err => ([⟨ctx, s.index, logEntry.ID, logEntry⟩], some err)
    | none => ([⟨ctx, s.index, logEntry.ID, logEntry⟩], none)

/-- The interface `LogServiceInterface`, as far as the processor uses it: the `Index`
calls that a call of `Process` makes, and the error it returns. -/
structure LogServiceInterface where
  Process : Context → Log → List IndexCall × Option Error

/-- A `LogService` seen through `LogServiceInterface` at a moment when the clock reads `now`. -/
def LogService.toInterface (s : LogService) (now : Time) : LogServiceInterface :=
  { Process := fun ctx logEntry => s.Process now ctx logEntry }

/-- The configuration fields of the struct `Processor`. The fields `Reader` and
`LogService` are collaborators and appear as inputs of `dispatch` and `step`. -/
structure Processor where
  MaxWorkers : Int
  RetryMax : Int
  RetryBackoff : Duration

/-- The observable calls made by `Start` and its goroutines. -/
inductive Event where
  | ReadMessage (result : Except Error Message)
  | Process (opCtx : Context) (logEntry : Log)
  | Index (call : IndexCall)
  | Sleep (d : Duration)
  | CommitMessage (m : Message)
  | Close (result : Option Error)
  deriving Repr

/-- What one goroutine meets while it runs: at its attempt number `i` (counted from 0)
the context `ctx` is in state `ctx i` and the service behaves as `LogService i`. -/
structure Env where
  ctx : Nat → Context
  LogService : Nat → LogServiceInterface

/-! ## The goroutine of one message -/

/-- The loop `for i := 0; i < p.RetryMax; i++` of the goroutine, started at `i`, with
`fuel` bounding the number of iterations still allowed. -/
def retryLoop (p : Processor) (env : Env) (logEntry : Log) : Nat → Nat → List Event
  | 0, _ => []
  | fuel + 1, i =>
    if (i : Int) < p.RetryMax then
      let opCtx := WithTimeout (env.ctx i) (5 * Second)
      let r := (env.LogService i).Process opCtx logEntry
      Event.Process opCtx logEntry :: (r.1.map Event.Index ++
        match r.2 with
        | none => []
        | some _ => Event.Sleep (Duration.mul p.RetryBackoff ((i : Int) + 1)) ::
            retryLoop p env logEntry fuel (i + 1))
    else []

/-- The body of `go func(m kafka.Message)` without its deferred function: build the log
entry, run the retry loop, commit. -/
def dispatch (p : Processor) (env : Env) (m : Message) : List Event :=
  retryLoop p env { ID := m.Key, Message := m.Value } p.RetryMax.toNat 0 ++
    [Event.CommitMessage m]

/-! ## Reading traces -/

/-- An event is a call of the Elasticsearch client. -/
def Event.isIndex : Event → Bool
  | Event.Index _ => true
  | _ => false

/-- An event is a call of `time.Sleep`. -/
def Event.isSleep : Event → Bool
  | Event.Sleep _ => true
  | _ => false

/-- An event is a call of `Reader.CommitMessage`. -/
def Event.isCommit : Event → Bool
  | Event.CommitMessage _ => true
  | _ => false

/-- The durations passed to `time.Sleep`, in order. -/
def sleeps : List Event → List Duration
  | [] => []
  | Event.Sleep d :: es => d :: sleeps es
  | _ :: es => sleeps es

/-- The entries passed to `LogService.Process`, in order. -/
def processed : List Event → List Log
  | [] => []
  | Event.Process _ e :: es => e :: processed es
  | _ :: es => processed es

/-- The contexts passed to `LogService.Process`, in order. -/
def processCtxs : List Event → List Context
  | [] => []
  | Event.Process c _ :: es => c :: processCtxs es
  | _ :: es => processCtxs es

/-- The messages passed to `Reader.CommitMessage`, in order. -/
def committed : List Event → List Message
  | [] => []
  | Event.CommitMessage m :: es => m :: committed es
  | _ :: es => committed es

/-- The error returned by attempt number `i` (counted from 0) of a goroutine. -/
def outcome (env : Env) (logEntry : Log) (i : Nat) : Option Error :=
  ((env.LogService i).Process (WithTimeout (env.ctx i) (5 * Second)) logEntry).2

/-- A service whose `Process` makes no `Index` call and returns the given error. -/
def constService (r : Option Error) : LogServiceInterface :=
  { Process := fun _ _ => ([], r) }

/-- A context that is never cancelled. -/
def background : Context := { done := false, timeout := none }

/-! ## `Processor.Start`: receive loop, semaphore, wait group, goroutines -/

/-- Where the receive loop of `Start` stands.
`read`: about to call `p.Reader.ReadMessage(ctx)`; `gotErr err`: the call returned
`err != nil`; `send m`: at `sem <- struct{}{}` for the received message `m`; `add m`: at
`wg.Add(1)`; `go m`: at the `go` statement; `wait`: at `wg.Wait()`; `close`: at
`p.Reader.Close()`; `returned r`: `Start` has returned `r`; `panicked`: the run time
stopped the program (`make` with a negative size, wait group counter below zero). -/
inductive MainPc where
  | read
  | gotErr (err : Error)
  | send (m : Message)
  | add (m : Message)
  | go (m : Message)
  | wait
  | close
  | returned (r : Option Error)
  | panicked
  deriving DecidableEq, Repr

/-- One goroutine launched by `Start` for the message `m`: what it meets (`env`), the
calls it has made (`past`), the calls of its body still to make (`todo`), whether its
deferred `<-sem` is still to run (`slot`) and whether its deferred `wg.Done()` is still to
run (`counted`). -/
structure Worker where
  m : Message
  env : Env
  past : List Event
  todo : List Event
  slot : Bool
  counted : Bool

/-- The state of one run of `Start`: the receive loop, whether `ctx` is cancelled, the
number of elements in the channel `sem`, the counter of `wg`, the goroutines in launch
order, and the calls made so far in the order they were made, each with its caller
(`none`: the receive loop, `some j`: goroutine number `j`). -/
structure State where
  pc : MainPc
  done : Bool
  sem : Nat
  wg : Nat
  workers : List Worker
  trace : List (Option Nat × Event)

/-- What can happen next.
`cancel`: `ctx` is cancelled from outside; `read r`: `ReadMessage` returns `r`;
`main`: the receive loop takes its next step that needs no answer from outside;
`go env`: the `go` statement launches the goroutine, which will meet `env`;
`close r`: `Reader.Close` returns `r`; `worker j`: goroutine number `j` takes its next step. -/
inductive Action where
  | cancel
  | read (r : Except Error Message)
  | main
  | go (env : Env)
  | close (r : Option Error)
  | worker (j : Nat)

/-- The state at the entry of `Start`: `make(chan struct{}, p.MaxWorkers)` panics on a
negative size. -/
def init (p : Processor) : State :=
  { pc := if p.MaxWorkers < 0 then MainPc.panicked else MainPc.read
    done := false, sem := 0, wg := 0, workers := [], trace := [] }

/-- The next step of goroutine `j`: the next call of its body; then the deferred `<-sem`,
which needs an element in the channel; then the deferred `wg.Done()`, which panics on a
counter that is already zero. -/
def stepWorker (s : State) (j : Nat) : Option State :=
  match s.workers[j]? with
  | none => none
  | some w =>
    match w.todo with
    | e :: rest =>
      some { s with
        workers := s.workers.set j { w with past := w.past ++ [e], todo := rest }
        trace := s.trace ++ [(some j, e)] }
    | [] =>
      if w.slot then
        if 0 < s.sem then
          some { s with sem := s.sem - 1, workers := s.workers.set j { w with slot := false } }
        else none
      else if w.counted then
        if 0 < s.wg then
          some { s with wg := s.wg - 1, workers := s.workers.set j { w with counted := false } }
        else some { s with pc := MainPc.panicked }
      else none

/-- The next step of the receive loop that needs no answer from outside: the handling of
an error of `ReadMessage` (lines 46-57), the send on `sem`, which needs room in the
channel, `wg.Add(1)`, and `wg.Wait()`, which needs a counter of zero. -/
def stepMain (p : Processor) (s : State) : Option State :=
  match s.pc with
  | MainPc.gotErr err =>
    if err = Error.EOF then
      some { s with
        pc := MainPc.read, trace := s.trace ++ [(none, Event.Sleep (10 * Millisecond))] }
    else if s.done then some { s with pc := MainPc.wait }
    else some { s with pc := MainPc.read }
  | MainPc.send m =>
    if (s.sem : Int) < p.MaxWorkers then some { s with pc := MainPc.add m, sem := s.sem + 1 }
    else none
  | MainPc.add m => some { s with pc := MainPc.go m, wg := s.wg + 1 }
  | MainPc.wait => if s.wg = 0 then some { s with pc := MainPc.close } else none
  | _ => none

/-- One step of a run of `Start`; `none` when the action cannot happen in this state. -/
def step (p : Processor) (s : State) : Action → Option State
  | Action.cancel => some { s with done := true }
  | Action.read r =>
    match s.pc with
    | MainPc.read =>
      some { s with
        pc := (match r with
          | Except.ok m => MainPc.send m
          | Except.error err => MainPc.gotErr err)
        trace := s.trace ++ [(none, Event.ReadMessage r)] }
    | _ => none
  | Action.main => stepMain p s
  | Action.go env =>
    match s.pc with
    | MainPc.go m =>
      some { s with
        pc := MainPc.read
        workers := s.workers ++
          [{ m := m, env := env, past := [], todo := dispatch p env m,
             slot := true, counted := true }] }
    | _ => none
  | Action.close r =>
    match s.pc with
    | MainPc.close =>
      some { s with pc := MainPc.returned r, trace := s.trace ++ [(none, Event.Close r)] }
    | _ => none
  | Action.worker j => stepWorker s j

/-- A run: the actions are taken one after the other. -/
def run (p : Processor) : State → List Action → Option State
  | s, [] => some s
  | s, a :: as =>
    match step p s a with
    | none => none
    | some t => run p t as

/-- A state that some run of `Start` reaches. -/
def Reachable (p : Processor) (s : State) : Prop :=
  ∃ as, run p (init p) as = some s

/-- The number of goroutines that hold a slot of the semaphore: launched, deferred
`<-sem` not yet run. -/
def inFlight (s : State) : Nat := s.workers.countP (fun w => w.slot)

/-- The number of goroutines whose deferred `wg.Done()` has not yet run. -/
def notDone (s : State) : Nat := s.workers.countP (fun w => w.counted)

/-- All calls of a trace, in order, without their callers. -/
def calls (t : List (Option Nat × Event)) : List Event := t.map Prod.snd

/-- The calls made by goroutine number `j`, in order. -/
def callsOf (j : Nat) (t : List (Option Nat × Event)) : List Event :=
  (t.filter (fun x => x.1 == some j)).map Prod.snd

/-- The calls made by the receive loop, in order. -/
def mainCalls (t : List (Option Nat × Event)) : List Event :=
  (t.filter (fun x => x.1 == none)).map Prod.snd

/-- The calls made by the goroutines, in order. -/
def workerCalls (t : List (Option Nat × Event)) : List Event :=
  (t.filter (fun x => x.1.isSome)).map Prod.snd

/-- The messages that `ReadMessage` returned, in order. -/
def received : List Event → List Message
  | [] => []
  | Event.ReadMessage (Except.ok m) :: es => m :: received es
  | _ :: es => received es

/-- The results of the calls of `Reader.Close`, in order. -/
def closes : List Event → List (Option Error)
  | [] => []
  | Event.Close r :: es => r :: closes es
  | _ :: es => closes es

/-- The log entry that the goroutine builds from a message. -/
def entryOf (m : Message) : Log := { ID := m.Key, Message := m.Value }

/-- A service that returns `nil` for every entry with non-empty ID and message. -/
def Succeeds (svc : LogServiceInterface) : Prop :=
  ∀ ctx e, e.ID ≠ "" → e.Message ≠ "" → (svc.Process ctx e).2 = none

/-- The number of semaphore elements sent by the receive loop for a goroutine that it
has not launched yet. -/
def pendingSlot : MainPc → Nat
  | MainPc.add _ => 1
  | MainPc.go _ => 1
  | _ => 0

/-- The wait group count added by the receive loop for a goroutine that it has not
launched yet. -/
def pendingAdd : MainPc → Nat
  | MainPc.go _ => 1
  | _ => 0

/-- The message that the receive loop has received and not yet handed to a goroutine. -/
def pendingMsg : MainPc → List Message
  | MainPc.send m => [m]
  | MainPc.add m => [m]
  | MainPc.go m => [m]
  | _ => []

/-- The results of `Close` that the receive loop has got, as its position tells. -/
def closedBy : MainPc → List (Option Error)
  | MainPc.returned r => [r]
  | _ => []

/-- The receive loop has left the loop and passed `wg.Wait()`. -/
def MainPc.drained : MainPc → Bool
  | MainPc.close => true
  | MainPc.returned _ => true
  | _ => false

/-- The calls that goroutine number `j` has made, as its record tells. -/
def pastOf (ws : List Worker) (j : Nat) : List Event :=
  match ws[j]? with
  | some w => w.past
  | none => []

/-- The invariant of `Start`: the channel and the wait group count the goroutines, every
goroutine runs the body `dispatch` and gives up its slot and its count only after it, the
trace records the calls of every goroutine, every received message has a goroutine or is
about to get one, and `Close` is called only at the end. -/
structure Inv (p : Processor) (s : State) : Prop where
  sem_eq : s.sem = inFlight s + pendingSlot s.pc
  sem_le : s.sem = 0 ∨ (s.sem : Int) ≤ p.MaxWorkers
  wg_eq : s.wg = notDone s + pendingAdd s.pc
  wf : ∀ w ∈ s.workers, w.past ++ w.todo = dispatch p w.env w.m ∧
    (w.slot = false → w.todo = []) ∧ (w.counted = false → w.slot = false)
  past_eq : ∀ j, callsOf j s.trace = pastOf s.workers j
  recv : received (mainCalls s.trace) = s.workers.map (fun w => w.m) ++ pendingMsg s.pc
  closed : closes (mainCalls s.trace) = closedBy s.pc
  last : ∀ r, s.pc = MainPc.returned r → s.trace.getLast? = some (none, Event.Close r)
  drained : s.pc.drained = true → s.wg = 0

/-- A call that the receive loop makes: `ReadMessage`, `time.Sleep`, `Close`. -/
def Event.byLoop : Event → Bool
  | Event.ReadMessage _ => true
  | Event.Sleep _ => true
  | Event.Close _ => true
  | _ => false

/-- A call that a goroutine makes: `Process` (and the `Index` calls inside it),
`time.Sleep`, `CommitMessage`. -/
def Event.byGoroutine : Event → Bool
  | Event.Process _ _ => true
  | Event.Index _ => true
  | Event.Sleep _ => true
  | Event.CommitMessage _ => true
  | _ => false

/-- The number of steps that a goroutine has still to take: the calls of its body, the
deferred `<-sem` and the deferred `wg.Done()`. -/
def Worker.stepsLeft (w : Worker) : Nat :=
  w.todo.length + (if w.slot then 1 else 0) + (if w.counted then 1 else 0)

/-- The number of steps that the goroutines have still to take, all together. -/
def stepsLeft (ws : List Worker) : Nat := (ws.map Worker.stepsLeft).sum

/-- The invariant of the trace of `Start`: the receive loop and the goroutines make only
their own kinds of calls, and the commits in the trace are those of the goroutines. -/
structure TraceInv (s : State) : Prop where
  tags : ∀ x ∈ s.trace, (x.1 = none → x.2.byLoop = true) ∧
    (x.1.isSome = true → x.2.byGoroutine = true)
  commits : (committed (calls s.trace)).Perm
    (s.workers.map (fun w => committed w.past)).flatten

/-- The invariant of `Start` with a single slot: the goroutines run one after the other,
in launch order. -/
structure SerialInv (s : State) : Prop where
  order : workerCalls s.trace = (s.workers.map (fun w => w.past)).flatten
  butlast : ∀ j w, s.workers[j]? = some w → j + 1 < s.workers.length → w.slot = false

/-- What a goroutine meets when the service of the processor is a `LogService`: at attempt
`i` the context is `ctx i`, the service (with the answers of its Elasticsearch client at
that moment) is `svc i` and the clock reads `now i`. -/
def logServiceEnv (ctx : Nat → Context) (svc : Nat → LogService) (now : Nat → Time) : Env :=
  { ctx := ctx, LogService := fun i => (svc i).toInterface (now i) }

/-! ## Sample inputs -/

/-- A goroutine that is never cancelled and whose attempts return `results i`, without
any `Index` call. -/
def scriptedEnv (results : Nat → Option Error) : Env :=
  { ctx := fun _ => background, LogService := fun i => constService (results i) }

/-- An Elasticsearch client whose `Index` always returns the given answer. -/
def constClient (r : Option Error) : ElasticSearchClient :=
  { Index := fun _ _ _ _ => r }

/-- A goroutine whose context is cancelled while its first attempt runs, and whose service
fails with the error of the context once the context is done. -/
def cancelledEnv : Env :=
  { ctx := fun i => { done := decide (1 ≤ i), timeout := none }
    LogService := fun _ =>
      { Process := fun c _ =>
          ([], if c.done then some Error.Canceled else some (Error.New "ES down")) } }

/-- The first message of the test `TestProcessor_Start`. -/
def msg1 : Message := { Key := "1", Value := "msg1" }

/-- A goroutine that is never cancelled, run against a `LogService` whose Elasticsearch
client always succeeds, with a clock that reads 17. -/
def okEnv : Env :=
  logServiceEnv (fun _ => background) (fun _ => ⟨constClient none, "logs"⟩) (fun _ => 17)

/-- The second message of the test `TestProcessor_Start`. -/
def msg2 : Message := { Key := "2", Value := "msg2" }

/-- The processor of the test `TestProcessor_Start`: one worker, one attempt, 1 ms. -/
def testProcessor : Processor := { MaxWorkers := 1, RetryMax := 1, RetryBackoff := Millisecond }

/-- A run of `Start` up to the `Process` call of the first goroutine. -/
def runInFlight : List Action :=
  [Action.read (Except.ok msg1), Action.main, Action.main, Action.go okEnv, Action.worker 0]

/-- A run of `Start` to its return: two messages are received and handled one after the
other, the context is cancelled, `ReadMessage` returns the error of the context, `Close`
returns `nil`. -/
def runToReturn : List Action :=
  [Action.read (Except.ok msg1), Action.main, Action.main, Action.go okEnv,
   Action.read (Except.ok msg2), Action.worker 0, Action.worker 0, Action.worker 0,
   Action.worker 0, Action.main, Action.main, Action.worker 0, Action.go okEnv,
   Action.worker 1, Action.worker 1, Action.worker 1, Action.worker 1, Action.worker 1,
   Action.cancel, Action.read (Except.error Error.Canceled), Action.main, Action.main,
   Action.close none]

/-- The third message of the test `TestProcessor_Start`. -/
def msg3 : Message := { Key := "3", Value := "msg3" }

/-- A run of `Start` on the input of the test `TestProcessor_Start` up to `wg.Wait()`:
the three messages are received and handled one after the other, every goroutine runs to
its end, the context is cancelled and `ReadMessage` returns the error of the context. -/
def runToWait : List Action :=
  [Action.read (Except.ok msg1), Action.main, Action.main, Action.go okEnv,
   Action.worker 0, Action.worker 0, Action.worker 0, Action.worker 0, Action.worker 0,
   Action.read (Except.ok msg2), Action.main, Action.main, Action.go okEnv,
   Action.worker 1, Action.worker 1, Action.worker 1, Action.worker 1, Action.worker 1,
   Action.read (Except.ok msg3), Action.main, Action.main, Action.go okEnv,
   Action.worker 2, Action.worker 2, Action.worker 2, Action.worker 2, Action.worker 2,
   Action.cancel, Action.read (Except.error Error.Canceled), Action.main]

/-- A run of `Start` up to `wg.Wait()` with a goroutine in flight: the first message is
received and its goroutine launched, the context is cancelled and `ReadMessage` returns
the error of the context before the goroutine has made any call. -/
def runToWaitInFlight : List Action :=
  [Action.read (Except.ok msg1), Action.main, Action.main, Action.go okEnv,
   Action.cancel, Action.read (Except.error Error.Canceled), Action.main]

/-- The state after a run, when every action of the run can happen. -/
def stateAfter (p : Processor) (as : List Action) : State :=
  (run p (init p) as).getD (init p)

/-- The test processor with `RetryMax = 0`. -/
def noRetryProcessor : Processor := { MaxWorkers := 1, RetryMax := 0, RetryBackoff := Millisecond }

/-- A run of `Start` with `RetryMax = 0` to its return: two messages are received and
handled one after the other, the context is cancelled, `ReadMessage` returns the error of
the context, `Close` returns `nil`. -/
def runNoRetry : List Action :=
  [Action.read (Except.ok msg1), Action.main, Action.main, Action.go okEnv,
   Action.read (Except.ok msg2), Action.worker 0, Action.worker 0,
   Action.main, Action.main, Action.worker 0, Action.go okEnv,
   Action.worker 1, Action.worker 1, Action.worker 1,
   Action.cancel, Action.read (Except.error Error.Canceled), Action.main, Action.main,
   Action.close none]

/-! ## The HTTP handler `LogHandler.GetLogByID` -/

/-- Go `error.Error()` for the error values of this file. -/
def Error.Error : Error → String
  | Error.EOF => "EOF"
  | Error.Canceled => "context canceled"
  | Error.DeadlineExceeded => "context deadline exceeded"
  | Error.New text => text

/-- The values that the handlers put into a query (`map[string]interface{}`): strings
and nested maps, a map being the list of the entries of its literal. -/
inductive QueryValue where
  | str (s : String)
  | obj (fields : List (String × QueryValue))

/-- Go `url.Values`, the parsed query string of a request: the values of each key. -/
abbrev Values := String → List String

/-- Go `url.Values.Get`: the first value of the key, the empty string when there is none. -/
def Values.Get (v : Values) (key : String) : String :=
  match v key with
  | [] => ""
  | x :: _ => x

/-- What the handler reads of an `*http.Request`: `r.Context()` and `r.URL.Query()`. -/
structure Request where
  ctx : Context
  query : Values

/-- What the handler leaves in the `http.ResponseWriter`: the status code and the body. -/
structure Response where
  status : Nat
  body : String
  deriving DecidableEq, Repr

/-- Go `http.StatusOK`. -/
def StatusOK : Nat := 200

/-- Go `http.StatusBadRequest`. -/
def StatusBadRequest : Nat := 400

/-- Go `http.StatusNotFound`. -/
def StatusNotFound : Nat := 404

/-- Go `http.StatusInternalServerError`. -/
def StatusInternalServerError : Nat := 500

/-- Go `http.Error(w, error, code)`: the status code and the message followed by a newline. -/
def httpError (error : String) (code : Nat) : Response :=
  { status := code, body := error ++ "\n" }

/-- One call `SearchLogs(ctx, index, query, size)`. -/
structure SearchCall where
  ctx : Context
  index : String
  query : QueryValue
  size : Int

/-- The interface `ElasticSearchClient`, as far as the handlers use it: what `SearchLogs`
answers to a call, the logs and the error (`none` is `nil`). -/
structure SearchClient where
  SearchLogs : Context → String → QueryValue → Int → List Log × Option Error

/-- The struct `LogHandler`. -/
structure LogHandler where
  LogService : SearchClient
  Index : String

/-- The method `LogHandler.GetLogByID`. `Encode l` is what `json.NewEncoder(w).Encode(l)`
writes into the response, whose status is then 200; the handler drops the error that
`Encode` returns. The result is the list of `SearchLogs` calls made and the response. -/
def LogHandler.GetLogByID (h : LogHandler) (Encode : Log → String) (r : Request) :
    List SearchCall × Response :=
  let id := Values.Get r.query "id"
  if id == "" then
    ([], httpError "missing id" StatusBadRequest)
  else
    let query := QueryValue.obj [("term", QueryValue.obj [("id", QueryValue.str id)])]
    let size := 1
    match h.LogService.SearchLogs r.ctx h.Index query size with
    | (_, some err) =>
      ([⟨r.ctx, h.Index, query, size⟩], httpError err.Error StatusInternalServerError)
    | (logs, none) =>
      match logs with
      | [] => ([⟨r.ctx, h.Index, query, size⟩], httpError "log not found" StatusNotFound)
      | l :: _ => ([⟨r.ctx, h.Index, query, size⟩], { status := StatusOK, body := Encode l })

/-- The client of the test `TestLogHandler_GetLogByID`: one log for the term query on
id "1", no log otherwise. -/
def testSearchClient : SearchClient :=
  { SearchLogs := fun _ _ query _ =>
      match query with
      | QueryValue.obj [("term", QueryValue.obj [("id", QueryValue.str "1")])] =>
        ([{ ID := "1", Message := "log1", Timestamp := 1700000000 }], none)
      | _ => ([], none) }

/-- The handler of the test `TestLogHandler_GetLogByID`. -/
def testHandler : LogHandler := { LogService := testSearchClient, Index := "logs-index" }

/-- A request whose query string has the single key `id` with the given value. -/
def requestWithId (id : String) : Request :=
  { ctx := background, query := fun key => if key = "id" then [id] else [] }

/-- A request without query string. -/
def requestWithoutId : Request := { ctx := background, query := fun _ => [] }

/-- The entry of the third case of the test `TestProcess`: ID "1", level "INFO", no message. -/
def entryWithoutMessage : Log := { ID := "1", Level := "INFO" }

/-- The entry of the first case of the test `TestProcess`. -/
def validEntry : Log :=
  { ID := "1", Level := "INFO", Message := "Test log message", Source := "unit-test" }

/-! ## Lemmas on traces -/

theorem processed_append (a b : List Event) : processed (a ++ b) = processed a ++ processed b := by
  induction a with
  | nil => rfl
  | cons e es ih => cases e <;> simp [processed, ih]

theorem sleeps_append (a b : List Event) : sleeps (a ++ b) = sleeps a ++ sleeps b := by
  induction a with
  | nil => rfl
  | cons e es ih => cases e <;> simp [sleeps, ih]

theorem committed_append (a b : List Event) : committed (a ++ b) = committed a ++ committed b := by
  induction a with
  | nil => rfl
  | cons e es ih => cases e <;> simp [committed, ih]

theorem processCtxs_append (a b : List Event) :
    processCtxs (a ++ b) = processCtxs a ++ processCtxs b := by
  induction a with
  | nil => rfl
  | cons e es ih => cases e <;> simp [processCtxs, ih]

theorem processed_index (cs : List IndexCall) : processed (cs.map Event.Index) = [] := by
  induction cs with
  | nil => rfl
  | cons c cs ih => simp [processed, ih]

theorem sleeps_index (cs : List IndexCall) : sleeps (cs.map Event.Index) = [] := by
  induction cs with
  | nil => rfl
  | cons c cs ih => simp [sleeps, ih]

theorem committed_index (cs : List IndexCall) : committed (cs.map Event.Index) = [] := by
  induction cs with
  | nil => rfl
  | cons c cs ih => simp [committed, ih]

theorem processCtxs_index (cs : List IndexCall) : processCtxs (cs.map Event.Index) = [] := by
  induction cs with
  | nil => rfl
  | cons c cs ih => simp [processCtxs, ih]

/-- One iteration of the retry loop, when the guard `i < p.RetryMax` holds. -/
theorem retryLoop_succ (p : Processor) (env : Env) (l : Log) (fuel i : Nat)
    (h : (i : Int) < p.RetryMax) :
    retryLoop p env l (fuel + 1) i =
      Event.Process (WithTimeout (env.ctx i) (5 * Second)) l ::
        (((env.LogService i).Process (WithTimeout (env.ctx i) (5 * Second)) l).1.map Event.Index ++
          match outcome env l i with
          | none => []
          | some _ => Event.Sleep (Duration.mul p.RetryBackoff ((i : Int) + 1)) ::
              retryLoop p env l fuel (i + 1)) := by
  simp [retryLoop, h, outcome]

/-- The retry loop stops when the guard `i < p.RetryMax` fails. -/
theorem retryLoop_stop (p : Processor) (env : Env) (l : Log) (fuel i : Nat)
    (h : ¬ (i : Int) < p.RetryMax) : retryLoop p env l fuel i = [] := by
  cases fuel <;> simp [retryLoop, h]

/-- The fuel `p.RetryMax.toNat` is enough: once the fuel covers the iterations that the
guard `i < p.RetryMax` allows, more fuel does not change the calls of the retry loop. -/
theorem retryLoop_fuel (p : Processor) (env : Env) (l : Log) :
    ∀ fuel i, p.RetryMax.toNat ≤ i + fuel →
      retryLoop p env l (fuel + 1) i = retryLoop p env l fuel i := by
  intro fuel
  induction fuel with
  | zero =>
    intro i h
    rw [retryLoop_stop p env l 1 i (by omega), retryLoop_stop p env l 0 i (by omega)]
  | succ n ih =>
    intro i h
    by_cases hi : (i : Int) < p.RetryMax
    · rw [retryLoop_succ p env l (n + 1) i hi, retryLoop_succ p env l n i hi,
        ih (i + 1) (by omega)]
    · rw [retryLoop_stop p env l _ i hi, retryLoop_stop p env l _ i hi]

/-- The retry loop never calls `CommitMessage`. -/
theorem retryLoop_no_commit (p : Processor) (env : Env) (l : Log) :
    ∀ fuel i, ∀ e ∈ retryLoop p env l fuel i, e.isCommit = false := by
  intro fuel
  induction fuel with
  | zero => intro i e he; simp [retryLoop] at he
  | succ n ih =>
    intro i e he
    by_cases h : (i : Int) < p.RetryMax
    · rw [retryLoop_succ p env l n i h] at he
      cases ho : outcome env l i with
      | none =>
        rw [ho] at he
        simp at he
        rcases he with he | ⟨c, _, he⟩
        · subst he; rfl
        · subst he; rfl
      | some err =>
        rw [ho] at he
        simp at he
        rcases he with he | ⟨c, _, he⟩ | he | he
        · subst he; rfl
        · subst he; rfl
        · subst he; rfl
        · exact ih _ _ he
    · rw [retryLoop_stop p env l _ i h] at he
      simp at he

/-- The number of `Process` calls of the retry loop when every attempt it can make fails. -/
theorem retryLoop_count_fail (p : Processor) (env : Env) (l : Log) :
    ∀ fuel i, (∀ j, i ≤ j → j < i + fuel → outcome env l j ≠ none) →
      ((i + fuel : Nat) : Int) ≤ p.RetryMax →
      (processed (retryLoop p env l fuel i)).length = fuel := by
  intro fuel
  induction fuel with
  | zero => intro i _ _; rfl
  | succ n ih =>
    intro i hf hb
    have hi : (i : Int) < p.RetryMax := by push_cast at hb; omega
    rw [retryLoop_succ p env l n i hi]
    cases ho : outcome env l i with
    | none => exact absurd ho (hf i (le_refl _) (by omega))
    | some err =>
      simp only [processed, processed_append, processed_index, List.nil_append, List.length_cons]
      rw [ih (i + 1) (fun j h1 h2 => hf j (by omega) (by omega)) (by push_cast at hb ⊢; omega)]

/-- The number of `Process` calls of the retry loop when the attempt `i + d` is the first
to return `nil`. -/
theorem retryLoop_count_success (p : Processor) (env : Env) (l : Log) :
    ∀ fuel i d, d < fuel → ((i + d : Nat) : Int) < p.RetryMax → outcome env l (i + d) = none →
      (∀ j, i ≤ j → j < i + d → outcome env l j ≠ none) →
      (processed (retryLoop p env l fuel i)).length = d + 1 := by
  intro fuel
  induction fuel with
  | zero => intro i d hd; omega
  | succ n ih =>
    intro i d hd hb hs hf
    have hi : (i : Int) < p.RetryMax := by push_cast at hb; omega
    rw [retryLoop_succ p env l n i hi]
    cases d with
    | zero =>
      rw [show i + 0 = i from rfl] at hs
      rw [hs]
      simp [processed, processed_append, processed_index]
    | succ d =>
      cases ho : outcome env l i with
      | none => exact absurd ho (hf i (le_refl _) (by omega))
      | some err =>
        simp only [processed, processed_append, processed_index, List.nil_append,
          List.length_cons]
        rw [ih (i + 1) d (by omega) (by rw [show i + 1 + d = i + (d + 1) by omega]; exact hb)
          (by rw [show i + 1 + d = i + (d + 1) by omega]; exact hs)
          (fun j h1 h2 => hf j (by omega) (by omega))]

/-- The goroutine is the retry loop on the entry of the message, followed by the commit. -/
theorem dispatch_eq (p : Processor) (env : Env) (m : Message) :
    dispatch p env m =
      retryLoop p env (entryOf m) p.RetryMax.toNat 0 ++ [Event.CommitMessage m] := rfl

theorem processed_dispatch (p : Processor) (env : Env) (m : Message) :
    processed (dispatch p env m) = processed (retryLoop p env (entryOf m) p.RetryMax.toNat 0) := by
  simp [dispatch, processed_append, processed, entryOf]

/-- The goroutine commits its message, and nothing else, exactly once. -/
theorem dispatch_committed (p : Processor) (env : Env) (m : Message) :
    committed (dispatch p env m) = [m] := by
  have h : ∀ es : List Event, (∀ e ∈ es, e.isCommit = false) → committed es = [] := by
    intro es
    induction es with
    | nil => intro _; rfl
    | cons e es ih =>
      intro h
      have h1 := h e (List.mem_cons_self _ _)
      have h2 := ih (fun x hx => h x (List.mem_cons_of_mem _ hx))
      cases e <;> simp_all [committed, Event.isCommit]
  simp [dispatch, committed_append, committed, h _ (retryLoop_no_commit p env _ _ _)]

/-- C1: whatever `RetryMax` is and whatever the attempts return, the goroutine of a message
calls `CommitMessage` exactly once, for that message, as its last call: every call of
`Process` comes before it. -/
theorem C1_commit_once_after_last_attempt (p : Processor) (env : Env) (m : Message) :
    committed (dispatch p env m) = [m] ∧
    ∃ pre, dispatch p env m = pre ++ [Event.CommitMessage m] ∧
      (∀ e ∈ pre, e.isCommit = false) ∧ processed pre = processed (dispatch p env m) :=
  ⟨dispatch_committed p env m, retryLoop p env (entryOf m) p.RetryMax.toNat 0, rfl,
    retryLoop_no_commit p env _ _ _, (processed_dispatch p env m).symm⟩

/-- C2: with `RetryMax >= 1`, the number of `Process` calls of the goroutine is the 1-based
index `k` of the first attempt that returns `nil`, when there is one among the first
`RetryMax`, and is `RetryMax` when each of the first `RetryMax` attempts fails. -/
theorem C2_attempt_count (p : Processor) (env : Env) (m : Message) (h : 1 ≤ p.RetryMax) :
    (∀ k : Nat, 1 ≤ k → (k : Int) ≤ p.RetryMax → outcome env (entryOf m) (k - 1) = none →
      (∀ j, 1 ≤ j → j < k → outcome env (entryOf m) (j - 1) ≠ none) →
      (processed (dispatch p env m)).length = k) ∧
    ((∀ k : Nat, 1 ≤ k → (k : Int) ≤ p.RetryMax → outcome env (entryOf m) (k - 1) ≠ none) →
      ((processed (dispatch p env m)).length : Int) = p.RetryMax) := by
  constructor
  · intro k hk hkr hs hf
    rw [processed_dispatch]
    have := retryLoop_count_success p env (entryOf m) p.RetryMax.toNat 0 (k - 1) (by omega)
      (by push_cast; omega) (by simpa using hs)
      (fun j _ h2 => by
        have := hf (j + 1) (by omega) (by omega)
        simpa using this)
    omega
  · intro hf
    rw [processed_dispatch]
    have := retryLoop_count_fail p env (entryOf m) p.RetryMax.toNat 0
      (fun j _ h2 => by
        have := hf (j + 1) (by omega) (by omega)
        simpa using this)
      (by omega)
    omega

/-- C2 at a concrete input: with `RetryMax = 3` a service that fails once and then succeeds
is called twice, and a service that always fails is called three times. -/
theorem C2_attempt_count_witness :
    (processed (dispatch ⟨1, 3, 300 * Millisecond⟩
      (scriptedEnv fun i => if i < 1 then some (Error.New "ES down") else none) msg1)).length = 2 ∧
    ((processed (dispatch ⟨1, 3, 300 * Millisecond⟩
      (scriptedEnv fun _ => some (Error.New "ES down")) msg1)).length : Int) = 3 :=
  ⟨(C2_attempt_count ⟨1, 3, 300 * Millisecond⟩
      (scriptedEnv fun i => if i < 1 then some (Error.New "ES down") else none) msg1
      (by decide)).1 2 (by decide) (by decide) (by decide)
      (fun j h1 h2 => by
        have : j = 1 := by omega
        subst this
        decide),
   (C2_attempt_count ⟨1, 3, 300 * Millisecond⟩
      (scriptedEnv fun _ => some (Error.New "ES down")) msg1 (by decide)).2
      (fun k _ _ => by simp [outcome, scriptedEnv, constService])⟩

theorem wrapInt64_of_fits (x : Int) (h1 : -2 ^ 63 ≤ x) (h2 : x < 2 ^ 63) : wrapInt64 x = x := by
  unfold wrapInt64
  norm_num at h1 h2 ⊢
  omega

/-- Splitting a trace at a `Sleep` when the part before the first `Sleep` is known. -/
theorem split_at_sleep (a : List Event) (ha : ∀ e ∈ a, e.isSleep = false) :
    ∀ (pre : List Event) (d0 d : Duration) (rest post : List Event),
      a ++ Event.Sleep d0 :: rest = pre ++ Event.Sleep d :: post →
      (pre = a ∧ d = d0 ∧ post = rest) ∨
        ∃ mid, pre = a ++ Event.Sleep d0 :: mid ∧ rest = mid ++ Event.Sleep d :: post := by
  induction a with
  | nil =>
    intro pre d0 d rest post h
    cases pre with
    | nil =>
      simp only [List.nil_append, List.cons.injEq, Event.Sleep.injEq] at h
      exact Or.inl ⟨rfl, h.1.symm, h.2.symm⟩
    | cons y mid =>
      simp only [List.nil_append, List.cons_append, List.cons.injEq] at h
      exact Or.inr ⟨mid, by simp [h.1], h.2⟩
  | cons x a ih =>
    intro pre d0 d rest post h
    cases pre with
    | nil =>
      simp only [List.nil_append, List.cons_append, List.cons.injEq] at h
      have := ha x (List.mem_cons_self _ _)
      rw [h.1] at this
      simp [Event.isSleep] at this
    | cons y pre =>
      simp only [List.cons_append, List.cons.injEq] at h
      rcases ih (fun e he => ha e (List.mem_cons_of_mem _ he)) pre d0 d rest post h.2 with
        ⟨h1, h2, h3⟩ | ⟨mid, h1, h2⟩
      · exact Or.inl ⟨by rw [h.1, h1], h2, h3⟩
      · exact Or.inr ⟨mid, by rw [h.1, h1]; rfl, h2⟩

theorem index_not_sleep (cs : List IndexCall) : ∀ e ∈ cs.map Event.Index, e.isSleep = false := by
  intro e he
  simp only [List.mem_map] at he
  obtain ⟨c, _, rfl⟩ := he
  rfl

/-- A `Sleep` of the retry loop started at `i`: at least one `Process` call comes before
it, the last of them failed, and the duration is the Go product of `RetryBackoff` and the
1-based number of that attempt. -/
theorem retryLoop_sleep (p : Processor) (env : Env) (l : Log) :
    ∀ fuel i pre d post, retryLoop p env l fuel i = pre ++ Event.Sleep d :: post →
      1 ≤ (processed pre).length ∧
      ((i + (processed pre).length : Nat) : Int) ≤ p.RetryMax ∧
      outcome env l (i + (processed pre).length - 1) ≠ none ∧
      d = Duration.mul p.RetryBackoff ((i + (processed pre).length : Nat) : Int) := by
  intro fuel
  induction fuel with
  | zero => intro i pre d post h; simp [retryLoop] at h
  | succ n ih =>
    intro i pre d post h
    by_cases hi : (i : Int) < p.RetryMax
    · rw [retryLoop_succ p env l n i hi] at h
      cases pre with
      | nil => simp at h
      | cons x pre =>
        simp only [List.cons_append, List.cons.injEq] at h
        obtain ⟨hx, h⟩ := h
        subst hx
        cases ho : outcome env l i with
        | none =>
          rw [ho] at h
          simp only [List.append_nil] at h
          have hm : Event.Sleep d ∈ List.map Event.Index
              ((env.LogService i).Process (WithTimeout (env.ctx i) (5 * Second)) l).1 := by
            rw [h]; simp
          have := index_not_sleep _ _ hm
          simp [Event.isSleep] at this
        | some err =>
          rw [ho] at h
          simp only at h
          rcases split_at_sleep _ (index_not_sleep _) pre _ d _ post h with
            ⟨h1, h2, _⟩ | ⟨mid, h1, h2⟩
          · subst h1
            simp only [processed, processed_index, List.length_cons, List.length_nil]
            refine ⟨by omega, by push_cast; omega, ?_, ?_⟩
            · simp [ho]
            · rw [h2]; push_cast; rfl
          · subst h1
            obtain ⟨i1, i2, i3, i4⟩ := ih (i + 1) mid d post h2
            simp only [processed, processed_append, processed_index, List.nil_append,
              List.length_cons]
            refine ⟨by omega, ?_, ?_, ?_⟩
            · rw [show i + ((processed mid).length + 1) = i + 1 + (processed mid).length by omega]
              exact i2
            · rw [show i + ((processed mid).length + 1) - 1 = i + 1 + (processed mid).length - 1
                by omega]
              exact i3
            · rw [show i + ((processed mid).length + 1) = i + 1 + (processed mid).length by omega]
              exact i4
    · rw [retryLoop_stop p env l _ i hi] at h
      simp at h

/-- A `Sleep` of the goroutine is a `Sleep` of its retry loop. -/
theorem dispatch_sleep (p : Processor) (env : Env) (m : Message) (pre post : List Event)
    (d : Duration) (h : dispatch p env m = pre ++ Event.Sleep d :: post) :
    ∃ post1, retryLoop p env (entryOf m) p.RetryMax.toNat 0 = pre ++ Event.Sleep d :: post1 := by
  rcases List.eq_nil_or_concat post with hp | ⟨L, b, hp⟩
  · subst hp
    have := congrArg List.getLast? h
    simp [dispatch] at this
  · subst hp
    refine ⟨L, ?_⟩
    have h2 : retryLoop p env (entryOf m) p.RetryMax.toNat 0 ++ [Event.CommitMessage m] =
        (pre ++ Event.Sleep d :: L) ++ [b] := by
      rw [List.concat_eq_append] at h
      simpa [dispatch, entryOf] using h
    exact (List.append_inj' h2 rfl).1

/-- C3 (amended): the duration that the goroutine passes to `time.Sleep` after its `k`-th
attempt (`k >= 1` calls of `Process` made so far, the last of which failed) is the Go
`int64` product `RetryBackoff * k`; it is the exact product `RetryBackoff * k` whenever
that product fits in an `int64`. -/
theorem C3_wait_after_kth_attempt (p : Processor) (env : Env) (m : Message)
    (pre post : List Event) (d : Duration)
    (h : dispatch p env m = pre ++ Event.Sleep d :: post) :
    1 ≤ (processed pre).length ∧ ((processed pre).length : Int) ≤ p.RetryMax ∧
    outcome env (entryOf m) ((processed pre).length - 1) ≠ none ∧
    d = wrapInt64 (p.RetryBackoff * ((processed pre).length : Int)) ∧
    (-2 ^ 63 ≤ p.RetryBackoff * ((processed pre).length : Int) →
      p.RetryBackoff * ((processed pre).length : Int) < 2 ^ 63 →
      d = p.RetryBackoff * ((processed pre).length : Int)) := by
  obtain ⟨post1, h1⟩ := dispatch_sleep p env m pre post d h
  obtain ⟨i1, i2, i3, i4⟩ := retryLoop_sleep p env (entryOf m) _ 0 pre d post1 h1
  simp only [Nat.zero_add] at i2 i3 i4
  refine ⟨i1, i2, i3, i4, fun h1 h2 => ?_⟩
  rw [i4, Duration.mul, wrapInt64_of_fits _ h1 h2]

/-- C3 (as stated) fails: with `RetryBackoff = 2^62` ns and two failing attempts, the wait
after the second attempt is `-2^63` ns, not `2^62 * 2`. -/
theorem C3_counterexample_overflow :
    dispatch ⟨1, 2, 2 ^ 62⟩ (scriptedEnv fun _ => some (Error.New "ES down")) msg1 =
      [Event.Process ⟨false, some 5000000000⟩ (entryOf msg1), Event.Sleep (2 ^ 62),
        Event.Process ⟨false, some 5000000000⟩ (entryOf msg1)] ++
        Event.Sleep (-2 ^ 63) :: [Event.CommitMessage msg1] ∧
    ¬ (∀ pre d post,
        dispatch ⟨1, 2, 2 ^ 62⟩ (scriptedEnv fun _ => some (Error.New "ES down")) msg1 =
          pre ++ Event.Sleep d :: post →
        d = (2 : Int) ^ 62 * ((processed pre).length : Int)) := by
  refine ⟨by rfl, fun hc => ?_⟩
  have := hc [Event.Process ⟨false, some 5000000000⟩ (entryOf msg1), Event.Sleep (2 ^ 62),
        Event.Process ⟨false, some 5000000000⟩ (entryOf msg1)] (-2 ^ 63)
        [Event.CommitMessage msg1] (by rfl)
  revert this
  decide

/-- A trace of the goroutine with a wait: two failing attempts with a base delay of 300 ms. -/
theorem C3_wait_after_kth_attempt_witness :
    dispatch ⟨1, 2, 300 * Millisecond⟩ (scriptedEnv fun _ => some (Error.New "ES down")) msg1 =
      [Event.Process ⟨false, some 5000000000⟩ (entryOf msg1), Event.Sleep 300000000,
        Event.Process ⟨false, some 5000000000⟩ (entryOf msg1)] ++
        Event.Sleep 600000000 :: [Event.CommitMessage msg1] ∧
    (600000000 : Int) = (300 * Millisecond) * ((2 : Nat) : Int) :=
  ⟨by rfl, (C3_wait_after_kth_attempt ⟨1, 2, 300 * Millisecond⟩
    (scriptedEnv fun _ => some (Error.New "ES down")) msg1
    [Event.Process ⟨false, some 5000000000⟩ (entryOf msg1), Event.Sleep 300000000,
      Event.Process ⟨false, some 5000000000⟩ (entryOf msg1)] [Event.CommitMessage msg1]
    600000000 (by rfl)).2.2.2.2 (by decide) (by decide)⟩

/-- A log entry with an empty ID or an empty message is rejected by `LogService.Process`
before any `Index` call. -/
theorem Process_rejects (s : LogService) (now : Time) (ctx : Context) (l : Log)
    (h : l.ID = "" ∨ l.Message = "") :
    s.Process now ctx l = ([], some (Error.New "invalid log: empty ID or message")) := by
  unfold LogService.Process
  rcases h with h | h <;> simp [h]

/-- The retry loop over a `LogService` for a rejected entry: every attempt up to
`RetryMax` is made and followed by a wait, and no `Index` call is made. -/
theorem retryLoop_rejected (p : Processor) (ctx : Nat → Context) (svc : Nat → LogService)
    (now : Nat → Time) (l : Log) (h : l.ID = "" ∨ l.Message = "") :
    ∀ fuel i, (fuel = 0 ∨ ((i + fuel : Nat) : Int) ≤ p.RetryMax) →
      (∀ e ∈ retryLoop p (logServiceEnv ctx svc now) l fuel i, e.isIndex = false) ∧
      processed (retryLoop p (logServiceEnv ctx svc now) l fuel i) = List.replicate fuel l ∧
      sleeps (retryLoop p (logServiceEnv ctx svc now) l fuel i) =
        (List.range' (i + 1) fuel).map (fun k => Duration.mul p.RetryBackoff (k : Int)) := by
  intro fuel
  induction fuel with
  | zero => intro i _; simp [retryLoop, processed, sleeps]
  | succ n ih =>
    intro i hb
    have hb : ((i + (n + 1) : Nat) : Int) ≤ p.RetryMax := by
      rcases hb with hb | hb
      · omega
      · exact hb
    have hi : (i : Int) < p.RetryMax := by push_cast at hb; omega
    have hn : n = 0 ∨ ((i + 1 + n : Nat) : Int) ≤ p.RetryMax := by
      right; push_cast at hb ⊢; omega
    obtain ⟨h1, h2, h3⟩ := ih (i + 1) hn
    have hr : ∀ c, ((logServiceEnv ctx svc now).LogService i).Process c l =
        ([], some (Error.New "invalid log: empty ID or message")) := fun c =>
      Process_rejects (svc i) (now i) c l h
    have ho : outcome (logServiceEnv ctx svc now) l i =
        some (Error.New "invalid log: empty ID or message") := by
      simp [outcome, hr]
    rw [retryLoop_succ p _ l n i hi, ho, hr]
    refine ⟨?_, ?_, ?_⟩
    · intro e he
      simp only [List.map_nil, List.nil_append, List.mem_cons] at he
      rcases he with he | he | he
      · subst he; rfl
      · subst he; rfl
      · exact h1 e he
    · simp [processed, h2, List.replicate_succ]
    · simp [sleeps, h3, List.range'_succ]

/-- The retry loop and its waits and entries for a rejected message, from attempt 0. -/
theorem dispatch_rejected (p : Processor) (ctx : Nat → Context) (svc : Nat → LogService)
    (now : Nat → Time) (m : Message) (h : m.Key = "" ∨ m.Value = "") :
    (∀ e ∈ dispatch p (logServiceEnv ctx svc now) m, e.isIndex = false) ∧
    processed (dispatch p (logServiceEnv ctx svc now) m) =
      List.replicate p.RetryMax.toNat (entryOf m) ∧
    sleeps (dispatch p (logServiceEnv ctx svc now) m) =
      (List.range' 1 p.RetryMax.toNat).map (fun k => Duration.mul p.RetryBackoff (k : Int)) := by
  have hb : p.RetryMax.toNat = 0 ∨ ((0 + p.RetryMax.toNat : Nat) : Int) ≤ p.RetryMax := by
    by_cases h0 : p.RetryMax.toNat = 0
    · exact Or.inl h0
    · right; omega
  obtain ⟨h1, h2, h3⟩ := retryLoop_rejected p ctx svc now (entryOf m) h p.RetryMax.toNat 0 hb
  refine ⟨?_, ?_, ?_⟩
  · intro e he
    simp only [dispatch, List.mem_append, List.mem_singleton] at he
    rcases he with he | he
    · exact h1 e he
    · subst he; rfl
  · rw [processed_dispatch, h2]
  · simp only [dispatch, sleeps_append, sleeps, List.append_nil]
    exact h3

/-- C4: for a message whose key or value is empty, whatever `RetryMax` is, the goroutine
run against a `LogService` never reaches the Elasticsearch client's `Index`, and it
commits the message exactly once. -/
theorem C4_rejected_never_indexed_still_committed (p : Processor) (ctx : Nat → Context)
    (svc : Nat → LogService) (now : Nat → Time) (m : Message) (h : m.Key = "" ∨ m.Value = "") :
    (∀ e ∈ dispatch p (logServiceEnv ctx svc now) m, e.isIndex = false) ∧
    committed (dispatch p (logServiceEnv ctx svc now) m) = [m] :=
  ⟨(dispatch_rejected p ctx svc now m h).1,
    dispatch_committed p (logServiceEnv ctx svc now) m⟩

/-- C4 at a concrete input: a message with an empty key, `RetryMax = 3`. -/
theorem C4_rejected_never_indexed_still_committed_witness :
    (∀ e ∈ dispatch ⟨1, 3, 300 * Millisecond⟩
        (logServiceEnv (fun _ => background) (fun _ => ⟨constClient none, "logs"⟩) (fun _ => 1))
        ⟨"", "msg"⟩, e.isIndex = false) ∧
    committed (dispatch ⟨1, 3, 300 * Millisecond⟩
        (logServiceEnv (fun _ => background) (fun _ => ⟨constClient none, "logs"⟩) (fun _ => 1))
        ⟨"", "msg"⟩) = [⟨"", "msg"⟩] :=
  C4_rejected_never_indexed_still_committed ⟨1, 3, 300 * Millisecond⟩ (fun _ => background)
    (fun _ => ⟨constClient none, "logs"⟩) (fun _ => 1) ⟨"", "msg"⟩ (Or.inl rfl)

/-- C5 (as stated) fails: with `RetryMax = 3` the goroutine of a message with an empty key
makes three attempts and three backoff waits before it commits, not a single attempt
without a wait. -/
theorem C5_counterexample_rejection_retried :
    dispatch ⟨1, 3, 300 * Millisecond⟩
        (logServiceEnv (fun _ => background) (fun _ => ⟨constClient none, "logs"⟩) (fun _ => 1))
        ⟨"", "msg"⟩ =
      [Event.Process ⟨false, some 5000000000⟩ (entryOf ⟨"", "msg"⟩), Event.Sleep 300000000,
       Event.Process ⟨false, some 5000000000⟩ (entryOf ⟨"", "msg"⟩), Event.Sleep 600000000,
       Event.Process ⟨false, some 5000000000⟩ (entryOf ⟨"", "msg"⟩), Event.Sleep 900000000,
       Event.CommitMessage ⟨"", "msg"⟩] ∧
    ¬ ((processed (dispatch ⟨1, 3, 300 * Millisecond⟩
        (logServiceEnv (fun _ => background) (fun _ => ⟨constClient none, "logs"⟩) (fun _ => 1))
        ⟨"", "msg"⟩)).length = 1 ∧
      sleeps (dispatch ⟨1, 3, 300 * Millisecond⟩
        (logServiceEnv (fun _ => background) (fun _ => ⟨constClient none, "logs"⟩) (fun _ => 1))
        ⟨"", "msg"⟩) = []) := by
  refine ⟨by rfl, ?_⟩
  decide

/-- C5 (amended): for a message whose key or value is empty, every attempt is rejected
before it reaches the Elasticsearch client, but the rejection is retried like any other
failure: the goroutine makes `max(RetryMax, 0)` attempts, waits after each of them
(`RetryBackoff * k` after the `k`-th, as a Go product), and then commits the message once. -/
theorem C5_rejection_is_retried (p : Processor) (ctx : Nat → Context)
    (svc : Nat → LogService) (now : Nat → Time) (m : Message) (h : m.Key = "" ∨ m.Value = "") :
    processed (dispatch p (logServiceEnv ctx svc now) m) =
      List.replicate p.RetryMax.toNat (entryOf m) ∧
    sleeps (dispatch p (logServiceEnv ctx svc now) m) =
      (List.range' 1 p.RetryMax.toNat).map (fun k => Duration.mul p.RetryBackoff (k : Int)) ∧
    (∀ e ∈ dispatch p (logServiceEnv ctx svc now) m, e.isIndex = false) ∧
    committed (dispatch p (logServiceEnv ctx svc now) m) = [m] ∧
    (dispatch p (logServiceEnv ctx svc now) m).getLast? = some (Event.CommitMessage m) :=
  ⟨(dispatch_rejected p ctx svc now m h).2.1, (dispatch_rejected p ctx svc now m h).2.2,
    (dispatch_rejected p ctx svc now m h).1, dispatch_committed p _ m, by simp [dispatch]⟩

/-- C5 (amended) at a concrete input: a message with an empty value, `RetryMax = 2`. -/
theorem C5_rejection_is_retried_witness :
    processed (dispatch ⟨1, 2, 300 * Millisecond⟩
        (logServiceEnv (fun _ => background) (fun _ => ⟨constClient none, "logs"⟩) (fun _ => 1))
        ⟨"7", ""⟩) = List.replicate 2 (entryOf ⟨"7", ""⟩) ∧
    sleeps (dispatch ⟨1, 2, 300 * Millisecond⟩
        (logServiceEnv (fun _ => background) (fun _ => ⟨constClient none, "logs"⟩) (fun _ => 1))
        ⟨"7", ""⟩) =
      (List.range' 1 2).map (fun k => Duration.mul (300 * Millisecond) (k : Int)) :=
  have h := C5_rejection_is_retried ⟨1, 2, 300 * Millisecond⟩ (fun _ => background)
    (fun _ => ⟨constClient none, "logs"⟩) (fun _ => 1) ⟨"7", ""⟩ (Or.inr rfl)
  ⟨h.1, h.2.1⟩

/-- The context handed to attempt `i + d` of the retry loop started at `i`, when the
attempts before it failed: the attempt is made, with the context derived from `ctx` as it
is at that moment. -/
theorem retryLoop_ctx_at (p : Processor) (env : Env) (l : Log) :
    ∀ fuel i d, d < fuel → ((i + d : Nat) : Int) < p.RetryMax →
      (∀ j, i ≤ j → j < i + d → outcome env l j ≠ none) →
      (processCtxs (retryLoop p env l fuel i))[d]? =
        some (WithTimeout (env.ctx (i + d)) (5 * Second)) := by
  intro fuel
  induction fuel with
  | zero => intro i d hd; omega
  | succ n ih =>
    intro i d hd hb hf
    have hi : (i : Int) < p.RetryMax := by push_cast at hb; omega
    rw [retryLoop_succ p env l n i hi]
    cases d with
    | zero => simp [processCtxs]
    | succ d =>
      cases ho : outcome env l i with
      | none => exact absurd ho (hf i (le_refl _) (by omega))
      | some err =>
        simp only [processCtxs, processCtxs_append, processCtxs_index, List.nil_append,
          List.getElem?_cons_succ]
        rw [ih (i + 1) d (by omega) (by rw [show i + 1 + d = i + (d + 1) by omega]; exact hb)
          (fun j h1 h2 => hf j (by omega) (by omega))]
        rw [show i + 1 + d = i + (d + 1) by omega]

/-- C9 (as stated) fails: the context is cancelled while the first attempt runs, the service
fails, `RetryMax = 3`; the goroutine still starts the second and the third attempt, each
with a context that is already done, and waits before each of them. -/
theorem C9_counterexample_attempts_after_cancel :
    dispatch ⟨1, 3, 300 * Millisecond⟩ cancelledEnv msg1 =
      [Event.Process ⟨false, some 5000000000⟩ (entryOf msg1), Event.Sleep 300000000,
       Event.Process ⟨true, some 5000000000⟩ (entryOf msg1), Event.Sleep 600000000,
       Event.Process ⟨true, some 5000000000⟩ (entryOf msg1), Event.Sleep 900000000,
       Event.CommitMessage msg1] ∧
    (cancelledEnv.ctx 1).done = true ∧
    ¬ (processed (dispatch ⟨1, 3, 300 * Millisecond⟩ cancelledEnv msg1)).length ≤ 1 := by
  refine ⟨by rfl, by rfl, ?_⟩
  decide

/-- C9 (amended): the goroutine never looks at the cancellation of `ctx`. Attempt `k + 1`
is started whenever `k < RetryMax` and the `k` attempts before it failed, whether or not
`ctx` is cancelled by then; the context it hands to `Process` is done exactly when `ctx`
is; and the goroutine ends with the commit of the message. -/
theorem C9_attempts_continue_after_cancel (p : Processor) (env : Env) (m : Message) (k : Nat)
    (hk : (k : Int) < p.RetryMax) (hf : ∀ j, j < k → outcome env (entryOf m) j ≠ none) :
    (processCtxs (dispatch p env m))[k]? = some (WithTimeout (env.ctx k) (5 * Second)) ∧
    (WithTimeout (env.ctx k) (5 * Second)).done = (env.ctx k).done ∧
    (dispatch p env m).getLast? = some (Event.CommitMessage m) := by
  refine ⟨?_, rfl, by simp [dispatch]⟩
  have h := retryLoop_ctx_at p env (entryOf m) p.RetryMax.toNat 0 k (by omega)
    (by simpa using hk) (fun j _ h2 => hf j (by omega))
  simp only [Nat.zero_add] at h
  have hlt : k < (processCtxs (retryLoop p env (entryOf m) p.RetryMax.toNat 0)).length := by
    by_contra hc
    rw [List.getElem?_eq_none (by omega)] at h
    exact Option.noConfusion h
  simp only [dispatch_eq, processCtxs_append]
  rw [List.getElem?_append_left hlt]
  exact h

/-- C9 (amended) at a concrete input: the third attempt of a goroutine whose context was
cancelled during the first attempt. -/
theorem C9_attempts_continue_after_cancel_witness :
    (processCtxs (dispatch ⟨1, 3, 300 * Millisecond⟩ cancelledEnv msg1))[2]? =
      some (WithTimeout (cancelledEnv.ctx 2) (5 * Second)) ∧
    (cancelledEnv.ctx 2).done = true :=
  ⟨(C9_attempts_continue_after_cancel ⟨1, 3, 300 * Millisecond⟩ cancelledEnv msg1 2 (by decide)
    (fun j hj => by
      have : j = 0 ∨ j = 1 := by omega
      rcases this with h | h <;> subst h <;> decide)).1, rfl⟩

/-! ## Lemmas on the run of `Start` -/

theorem received_append (a b : List Event) : received (a ++ b) = received a ++ received b := by
  induction a with
  | nil => rfl
  | cons e es ih =>
    cases e with
    | ReadMessage r => cases r <;> simp [received, ih]
    | _ => simp [received, ih]

theorem closes_append (a b : List Event) : closes (a ++ b) = closes a ++ closes b := by
  induction a with
  | nil => rfl
  | cons e es ih => cases e <;> simp [closes, ih]

theorem callsOf_snoc (j : Nat) (t : List (Option Nat × Event)) (c : Option Nat) (e : Event) :
    callsOf j (t ++ [(c, e)]) = callsOf j t ++ (if c = some j then [e] else []) := by
  unfold callsOf
  by_cases h : c = some j <;> simp [List.filter_append, List.filter_cons, h]

theorem mainCalls_snoc_main (t : List (Option Nat × Event)) (e : Event) :
    mainCalls (t ++ [(none, e)]) = mainCalls t ++ [e] := by
  simp [mainCalls, List.filter_append]

theorem mainCalls_snoc_worker (t : List (Option Nat × Event)) (j : Nat) (e : Event) :
    mainCalls (t ++ [(some j, e)]) = mainCalls t := by
  simp [mainCalls, List.filter_append]

/-- Replacing an element by one with the same flag keeps the count. -/
theorem countP_set_same (f : Worker → Bool) :
    ∀ (l : List Worker) (j : Nat) (w v : Worker), l[j]? = some w → f v = f w →
      (l.set j v).countP f = l.countP f := by
  intro l
  induction l with
  | nil => intro j w v h; simp at h
  | cons x xs ih =>
    intro j w v h hf
    cases j with
    | zero =>
      simp only [List.getElem?_cons_zero, Option.some.injEq] at h
      subst h
      simp [List.countP_cons, hf]
    | succ j =>
      simp only [List.getElem?_cons_succ] at h
      simp [List.countP_cons, ih j w v h hf]

/-- Replacing an element whose flag is set by one whose flag is clear lowers the count by one. -/
theorem countP_set_drop (f : Worker → Bool) :
    ∀ (l : List Worker) (j : Nat) (w v : Worker), l[j]? = some w → f w = true → f v = false →
      (l.set j v).countP f + 1 = l.countP f := by
  intro l
  induction l with
  | nil => intro j w v h; simp at h
  | cons x xs ih =>
    intro j w v h hw hv
    cases j with
    | zero =>
      simp only [List.getElem?_cons_zero, Option.some.injEq] at h
      subst h
      simp [List.countP_cons, hw, hv]
    | succ j =>
      simp only [List.getElem?_cons_succ] at h
      have := ih j w v h hw hv
      simp only [List.set_cons_succ, List.countP_cons]
      omega

theorem mem_of_getElem? {l : List Worker} {j : Nat} {w : Worker} (h : l[j]? = some w) :
    w ∈ l := by
  rw [List.getElem?_eq_some] at h
  obtain ⟨hj, rfl⟩ := h
  exact List.getElem_mem _

theorem pastOf_set (ws : List Worker) (j k : Nat) (w v : Worker) (h : ws[j]? = some w) :
    pastOf (ws.set j v) k = if k = j then v.past else pastOf ws k := by
  unfold pastOf
  have hj : j < ws.length := by
    rw [List.getElem?_eq_some] at h
    exact h.1
  by_cases hk : k = j
  · subst hk
    simp [List.getElem?_set_eq_of_lt, hj]
  · rw [List.getElem?_set_ne (Ne.symm hk)]
    simp [hk]

theorem pastOf_append_new (ws : List Worker) (v : Worker) (k : Nat) (hv : v.past = []) :
    pastOf (ws ++ [v]) k = pastOf ws k := by
  unfold pastOf at *
  rcases Nat.lt_trichotomy k ws.length with h | h | h
  · rw [List.getElem?_append_left h]
  · subst h
    simp [hv]
  · rw [List.getElem?_append_right (by omega)]
    have h1 : ws[k]? = none := List.getElem?_eq_none (by omega)
    have h2 : [v][k - ws.length]? = none := List.getElem?_eq_none (by simp; omega)
    rw [h1, h2]

theorem pastOf_length (ws : List Worker) : pastOf ws ws.length = [] := by
  unfold pastOf
  simp

theorem inv_init (p : Processor) : Inv p (init p) := by
  refine ⟨?_, Or.inl rfl, ?_, ?_, ?_, ?_, ?_, ?_, ?_⟩
  · unfold init; split <;> rfl
  · unfold init; split <;> rfl
  · intro w hw; simp [init] at hw
  · intro j; simp [init, callsOf, pastOf]
  · unfold init; split <;> rfl
  · unfold init; split <;> rfl
  · intro r h; unfold init at h; simp only at h; split at h <;> cases h
  · intro h; rfl

theorem inv_cancel (p : Processor) (s : State) (h : Inv p s) : Inv p { s with done := true } :=
  ⟨h.sem_eq, h.sem_le, h.wg_eq, h.wf, h.past_eq, h.recv, h.closed, h.last, h.drained⟩

theorem inv_read (p : Processor) (s t : State) (r : Except Error Message) (h : Inv p s)
    (hs : step p s (Action.read r) = some t) : Inv p t := by
  unfold step at hs
  cases hpc : s.pc <;> simp only [hpc] at hs <;> try exact Option.noConfusion hs
  simp only [Option.some.injEq] at hs
  subst hs
  have h1 := h.sem_eq
  have h3 := h.wg_eq
  have h6 := h.recv
  have h7 := h.closed
  rw [hpc] at h1 h3 h6 h7
  refine ⟨?_, h.sem_le, ?_, h.wf, ?_, ?_, ?_, ?_, ?_⟩
  · cases r <;> exact h1
  · cases r <;> exact h3
  · intro j
    simp only [callsOf_snoc]
    simpa using h.past_eq j
  · simp only [mainCalls_snoc_main, received_append, h6]
    cases r <;> simp [received, pendingMsg]
  · simp only [mainCalls_snoc_main, closes_append, h7]
    cases r <;> simp [closes, closedBy]
  · intro r2 h2
    cases r <;> simp at h2
  · intro h2
    cases r <;> simp [MainPc.drained] at h2

theorem inv_main (p : Processor) (s t : State) (h : Inv p s)
    (hs : step p s Action.main = some t) : Inv p t := by
  simp only [step] at hs
  unfold stepMain at hs
  have h1 := h.sem_eq
  have h2 := h.sem_le
  have h3 := h.wg_eq
  have h6 := h.recv
  have h7 := h.closed
  cases hpc : s.pc <;> simp only [hpc] at hs <;> try exact Option.noConfusion hs
  · -- gotErr
    rename_i err
    rw [hpc] at h1 h3 h6 h7
    by_cases he : err = Error.EOF
    · simp only [he, if_true, Option.some.injEq] at hs
      subst hs
      refine ⟨h1, h2, h3, h.wf, ?_, ?_, ?_, ?_, ?_⟩
      · intro j
        simp only [callsOf_snoc]
        simpa using h.past_eq j
      · simp only [mainCalls_snoc_main, received_append, h6]
        simp [received, pendingMsg]
      · simp only [mainCalls_snoc_main, closes_append, h7]
        simp [closes, closedBy]
      · intro r2 h2; simp at h2
      · intro h2; simp [MainPc.drained] at h2
    · simp only [he, if_false] at hs
      by_cases hd : s.done = true
      · rw [if_pos hd] at hs
        simp only [Option.some.injEq] at hs
        subst hs
        exact ⟨h1, h2, h3, h.wf, h.past_eq, h6, h7, fun r2 h2 => by simp at h2,
          fun h2 => by simp [MainPc.drained] at h2⟩
      · rw [if_neg hd] at hs
        simp only [Option.some.injEq] at hs
        subst hs
        exact ⟨h1, h2, h3, h.wf, h.past_eq, h6, h7, fun r2 h2 => by simp at h2,
          fun h2 => by simp [MainPc.drained] at h2⟩
  · -- send
    rename_i m
    rw [hpc] at h1 h3 h6 h7
    by_cases hc : (s.sem : Int) < p.MaxWorkers
    · simp only [hc, if_true, Option.some.injEq] at hs
      subst hs
      refine ⟨?_, Or.inr ?_, h3, h.wf, h.past_eq, h6, h7, fun r2 h2 => by simp at h2,
          fun h2 => by simp [MainPc.drained] at h2⟩
      · simp only [pendingSlot] at h1 ⊢
        show s.sem + 1 = s.workers.countP (fun w => w.slot) + 1
        unfold inFlight at h1
        omega
      · show ((s.sem + 1 : Nat) : Int) ≤ p.MaxWorkers
        push_cast
        omega
    · simp only [hc, if_false] at hs
      exact Option.noConfusion hs
  · -- add
    rename_i m
    rw [hpc] at h1 h3 h6 h7
    simp only [Option.some.injEq] at hs
    subst hs
    refine ⟨h1, h2, ?_, h.wf, h.past_eq, h6, h7, fun r2 h2 => by simp at h2,
          fun h2 => by simp [MainPc.drained] at h2⟩
    simp only [pendingAdd] at h3 ⊢
    show s.wg + 1 = s.workers.countP (fun w => w.counted) + 1
    unfold notDone at h3
    omega
  · -- wait
    rw [hpc] at h1 h3 h6 h7
    by_cases hw : s.wg = 0
    · rw [if_pos hw] at hs
      simp only [Option.some.injEq] at hs
      subst hs
      exact ⟨h1, h2, h3, h.wf, h.past_eq, h6, h7,
        fun r2 h2 => by simp at h2, fun _ => hw⟩
    · rw [if_neg hw] at hs
      exact Option.noConfusion hs

theorem inv_go (p : Processor) (s t : State) (env : Env) (h : Inv p s)
    (hs : step p s (Action.go env) = some t) : Inv p t := by
  unfold step at hs
  cases hpc : s.pc <;> simp only [hpc] at hs <;> try exact Option.noConfusion hs
  rename_i m
  simp only [Option.some.injEq] at hs
  subst hs
  have h1 := h.sem_eq
  have h3 := h.wg_eq
  have h6 := h.recv
  have h7 := h.closed
  rw [hpc] at h1 h3 h6 h7
  refine ⟨?_, h.sem_le, ?_, ?_, ?_, ?_, h7, fun r2 h2 => by simp at h2,
    fun h2 => by simp [MainPc.drained] at h2⟩
  · simp only [pendingSlot, inFlight] at h1 ⊢
    simp [List.countP_append, h1]
  · simp only [pendingAdd, notDone] at h3 ⊢
    simp [List.countP_append, h3]
  · intro w hw
    simp only [List.mem_append, List.mem_singleton] at hw
    rcases hw with hw | hw
    · exact h.wf w hw
    · subst hw
      simp
  · intro j
    rw [pastOf_append_new _ _ _ rfl]
    exact h.past_eq j
  · simp only [h6, pendingMsg]
    simp

theorem inv_close (p : Processor) (s t : State) (r : Option Error) (h : Inv p s)
    (hs : step p s (Action.close r) = some t) : Inv p t := by
  unfold step at hs
  cases hpc : s.pc <;> simp only [hpc] at hs <;> try exact Option.noConfusion hs
  simp only [Option.some.injEq] at hs
  subst hs
  have h1 := h.sem_eq
  have h3 := h.wg_eq
  have h6 := h.recv
  have h7 := h.closed
  have h9 := h.drained
  rw [hpc] at h1 h3 h6 h7 h9
  refine ⟨h1, h.sem_le, h3, h.wf, ?_, ?_, ?_, ?_, fun _ => h9 rfl⟩
  · intro j
    simp only [callsOf_snoc]
    simpa using h.past_eq j
  · simp only [mainCalls_snoc_main, received_append, h6]
    simp [received, pendingMsg]
  · simp only [mainCalls_snoc_main, closes_append, h7]
    simp [closes, closedBy]
  · intro r2 h2
    simp only [MainPc.returned.injEq] at h2
    subst h2
    simp

/-- Once the receive loop has passed `wg.Wait()`, every goroutine has finished. -/
theorem drained_finished (p : Processor) (s : State) (h : Inv p s) (hd : s.pc.drained = true) :
    ∀ w ∈ s.workers, w.counted = false ∧ w.slot = false ∧ w.todo = [] := by
  intro w hw
  have h0 := h.drained hd
  have h3 := h.wg_eq
  have hc : w.counted = false := by
    by_contra hc
    have hpos : 0 < s.workers.countP (fun w => w.counted) :=
      List.countP_pos_iff.mpr ⟨w, hw, by simpa using hc⟩
    unfold notDone at h3
    omega
  obtain ⟨_, i2, i3⟩ := h.wf w hw
  exact ⟨hc, i3 hc, i2 (i3 hc)⟩

theorem map_m_set (l : List Worker) (j : Nat) (w v : Worker) (h : l[j]? = some w)
    (hv : v.m = w.m) : (l.set j v).map (fun w => w.m) = l.map (fun w => w.m) := by
  induction l generalizing j with
  | nil => simp at h
  | cons x xs ih =>
    cases j with
    | zero =>
      simp only [List.getElem?_cons_zero, Option.some.injEq] at h
      subst h
      simp [hv]
    | succ j =>
      simp only [List.getElem?_cons_succ] at h
      simp [ih j h]

theorem past_eq_set (s : State) (j : Nat) (w v : Worker) (hw : s.workers[j]? = some w)
    (hv : v.past = w.past) (h : ∀ k, callsOf k s.trace = pastOf s.workers k) :
    ∀ k, callsOf k s.trace = pastOf (s.workers.set j v) k := by
  intro k
  rw [pastOf_set _ _ _ w _ hw]
  by_cases hk : k = j
  · subst hk
    simp only [if_true]
    rw [h k, hv]
    simp [pastOf, hw]
  · simp only [hk, if_false]
    exact h k

theorem inv_worker (p : Processor) (s t : State) (j : Nat) (h : Inv p s)
    (hs : step p s (Action.worker j) = some t) : Inv p t := by
  simp only [step] at hs
  unfold stepWorker at hs
  cases hw : s.workers[j]? with
  | none => rw [hw] at hs; exact Option.noConfusion hs
  | some w =>
    rw [hw] at hs
    simp only at hs
    have hmem := mem_of_getElem? hw
    obtain ⟨w1, w2, w3⟩ := h.wf w hmem
    have hfin := fun hd => drained_finished p s h hd w hmem
    obtain ⟨m, env, past, todo, slot, counted⟩ := w
    simp only at w1 w2 w3 hs hfin
    cases todo with
    | cons e rest =>
      simp only [Option.some.injEq] at hs
      subst hs
      have hnd : s.pc.drained = false := by
        by_contra hd
        exact List.noConfusion (hfin (by simpa using hd)).2.2
      refine ⟨?_, h.sem_le, ?_, ?_, ?_, ?_, ?_, ?_, h.drained⟩
      · have := h.sem_eq
        simp only [inFlight] at this ⊢
        rw [countP_set_same (fun w => w.slot) s.workers j _ ⟨m, env, past ++ [e], rest, slot, counted⟩ hw rfl]
        exact this
      · have := h.wg_eq
        simp only [notDone] at this ⊢
        rw [countP_set_same (fun w => w.counted) s.workers j _ ⟨m, env, past ++ [e], rest, slot, counted⟩ hw rfl]
        exact this
      · intro v hv
        rcases List.mem_or_eq_of_mem_set hv with hv | hv
        · exact h.wf v hv
        · subst hv
          refine ⟨?_, ?_, w3⟩
          · simp only [List.append_assoc, List.singleton_append]
            exact w1
          · intro hsl
            exact List.noConfusion (w2 hsl)
      · intro k
        simp only [callsOf_snoc, pastOf_set _ _ _ _ _ hw]
        by_cases hk : k = j
        · subst hk
          simp only [if_true]
          rw [h.past_eq k]
          simp [pastOf, hw]
        · have hk2 : ¬ (some j = some k) := by
            intro hh; exact hk (Option.some.inj hh).symm
          simp only [hk, hk2, if_false, List.append_nil]
          exact h.past_eq k
      · simp only [mainCalls_snoc_worker]
        rw [map_m_set _ _ _ ⟨m, env, past ++ [e], rest, slot, counted⟩ hw rfl]
        exact h.recv
      · simp only [mainCalls_snoc_worker]
        exact h.closed
      · intro r hr
        exfalso
        have hr2 : s.pc = MainPc.returned r := hr
        rw [hr2] at hnd
        simp [MainPc.drained] at hnd
    | nil =>
      simp only at hs
      by_cases hsl : slot = true
      · rw [if_pos hsl] at hs
        by_cases hsem : 0 < s.sem
        · rw [if_pos hsem] at hs
          simp only [Option.some.injEq] at hs
          subst hs
          have hdrop := countP_set_drop (fun w => w.slot) s.workers j _
            ⟨m, env, past, [], false, counted⟩ hw hsl rfl
          refine ⟨?_, ?_, ?_, ?_, ?_, ?_, h.closed, h.last, h.drained⟩
          · have := h.sem_eq
            simp only [inFlight] at this ⊢
            omega
          · rcases h.sem_le with h0 | h0
            · omega
            · right
              show ((s.sem - 1 : Nat) : Int) ≤ p.MaxWorkers
              omega
          · have := h.wg_eq
            simp only [notDone] at this ⊢
            rw [countP_set_same (fun w => w.counted) s.workers j _ ⟨m, env, past, [], false, counted⟩ hw rfl]
            exact this
          · intro v hv
            rcases List.mem_or_eq_of_mem_set hv with hv | hv
            · exact h.wf v hv
            · subst hv
              exact ⟨w1, fun _ => rfl, fun _ => rfl⟩
          · exact past_eq_set s j _ ⟨m, env, past, [], false, counted⟩ hw rfl h.past_eq
          · simp only
            rw [map_m_set _ _ _ ⟨m, env, past, [], false, counted⟩ hw rfl]
            exact h.recv
        · rw [if_neg hsem] at hs
          exact Option.noConfusion hs
      · rw [if_neg hsl] at hs
        have hsl2 : slot = false := by simpa using hsl
        by_cases hct : counted = true
        · rw [if_pos hct] at hs
          have hpos : 0 < s.workers.countP (fun w => w.counted) :=
            List.countP_pos_iff.mpr ⟨_, hmem, by simpa using hct⟩
          have hwg : 0 < s.wg := by
            have := h.wg_eq
            unfold notDone at this
            omega
          rw [if_pos hwg] at hs
          simp only [Option.some.injEq] at hs
          subst hs
          have hdrop := countP_set_drop (fun w => w.counted) s.workers j _
            ⟨m, env, past, [], slot, false⟩ hw hct rfl
          refine ⟨?_, h.sem_le, ?_, ?_, ?_, ?_, h.closed, h.last, ?_⟩
          · have := h.sem_eq
            simp only [inFlight] at this ⊢
            rw [countP_set_same (fun w => w.slot) s.workers j _ ⟨m, env, past, [], slot, false⟩ hw rfl]
            exact this
          · have := h.wg_eq
            simp only [notDone] at this ⊢
            omega
          · intro v hv
            rcases List.mem_or_eq_of_mem_set hv with hv | hv
            · exact h.wf v hv
            · subst hv
              exact ⟨w1, fun _ => rfl, fun _ => hsl2⟩
          · exact past_eq_set s j _ ⟨m, env, past, [], slot, false⟩ hw rfl h.past_eq
          · simp only
            rw [map_m_set _ _ _ ⟨m, env, past, [], slot, false⟩ hw rfl]
            exact h.recv
          · intro hd
            have := h.drained hd
            omega
        · rw [if_neg hct] at hs
          exact Option.noConfusion hs

/-- Every step of a run of `Start` keeps the invariant. -/
theorem inv_step (p : Processor) (s t : State) (a : Action) (h : Inv p s)
    (hs : step p s a = some t) : Inv p t := by
  cases a with
  | cancel =>
    simp only [step, Option.some.injEq] at hs
    subst hs
    exact inv_cancel p s h
  | read r => exact inv_read p s t r h hs
  | main => exact inv_main p s t h hs
  | go env => exact inv_go p s t env h hs
  | close r => exact inv_close p s t r h hs
  | worker j => exact inv_worker p s t j h hs

theorem inv_run (p : Processor) : ∀ (as : List Action) (s t : State), Inv p s →
    run p s as = some t → Inv p t := by
  intro as
  induction as with
  | nil =>
    intro s t h hr
    simp only [run, Option.some.injEq] at hr
    subst hr
    exact h
  | cons a as ih =>
    intro s t h hr
    simp only [run] at hr
    cases hst : step p s a with
    | none => rw [hst] at hr; exact Option.noConfusion hr
    | some u =>
      rw [hst] at hr
      exact ih u t (inv_step p s u a h hst) hr

/-- The invariant holds in every state that a run of `Start` reaches. -/
theorem inv_reachable (p : Processor) (s : State) (h : Reachable p s) : Inv p s := by
  obtain ⟨as, hr⟩ := h
  exact inv_run p as (init p) s (inv_init p) hr

/-- The retry loop makes only calls of a goroutine. -/
theorem retryLoop_byGoroutine (p : Processor) (env : Env) (l : Log) :
    ∀ fuel i, ∀ e ∈ retryLoop p env l fuel i, e.byGoroutine = true := by
  intro fuel
  induction fuel with
  | zero => intro i e he; simp [retryLoop] at he
  | succ n ih =>
    intro i e he
    by_cases h : (i : Int) < p.RetryMax
    · rw [retryLoop_succ p env l n i h] at he
      cases ho : outcome env l i with
      | none =>
        rw [ho] at he
        simp at he
        rcases he with he | ⟨c, _, he⟩
        · subst he; rfl
        · subst he; rfl
      | some err =>
        rw [ho] at he
        simp at he
        rcases he with he | ⟨c, _, he⟩ | he | he
        · subst he; rfl
        · subst he; rfl
        · subst he; rfl
        · exact ih _ _ he
    · rw [retryLoop_stop p env l _ i h] at he
      simp at he

theorem dispatch_byGoroutine (p : Processor) (env : Env) (m : Message) :
    ∀ e ∈ dispatch p env m, e.byGoroutine = true := by
  intro e he
  rw [dispatch_eq] at he
  simp only [List.mem_append, List.mem_singleton] at he
  rcases he with he | he
  · exact retryLoop_byGoroutine p env _ _ _ e he
  · subst he; rfl

theorem calls_snoc (t : List (Option Nat × Event)) (c : Option Nat) (e : Event) :
    calls (t ++ [(c, e)]) = calls t ++ [e] := by
  simp [calls]

/-- Adding calls to the record of one goroutine adds them to the commits of all. -/
theorem flatten_set_perm (f : Worker → List Message) (x : List Message) :
    ∀ (l : List Worker) (j : Nat) (w v : Worker), l[j]? = some w → f v = f w ++ x →
      ((l.set j v).map f).flatten.Perm ((l.map f).flatten ++ x) := by
  intro l
  induction l with
  | nil => intro j w v h; simp at h
  | cons a as ih =>
    intro j w v h hv
    cases j with
    | zero =>
      simp only [List.getElem?_cons_zero, Option.some.injEq] at h
      subst h
      simp only [List.set_cons_zero, List.map_cons, List.flatten_cons, hv, List.append_assoc]
      exact List.Perm.append_left _ List.perm_append_comm
    | succ j =>
      simp only [List.getElem?_cons_succ] at h
      simp only [List.set_cons_succ, List.map_cons, List.flatten_cons, List.append_assoc]
      exact List.Perm.append_left _ (ih j w v h hv)

theorem traceInv_init (p : Processor) : TraceInv (init p) := by
  refine ⟨?_, ?_⟩
  · intro x hx; simp [init] at hx
  · simp [init, calls, committed]

/-- Every step of a run of `Start` keeps the invariant of the trace. -/
theorem traceInv_step (p : Processor) (s t : State) (a : Action) (h : Inv p s)
    (h2 : TraceInv s) (hs : step p s a = some t) : TraceInv t := by
  have snoc_main : ∀ e : Event, e.byLoop = true → committed [e] = [] →
      TraceInv { s with trace := s.trace ++ [(none, e)] } := by
    intro e he hc
    refine ⟨?_, ?_⟩
    · intro x hx
      simp only [List.mem_append, List.mem_singleton] at hx
      rcases hx with hx | hx
      · exact h2.tags x hx
      · subst hx
        exact ⟨fun _ => he, fun hh => by simp at hh⟩
    · simp only [calls_snoc, committed_append, hc, List.append_nil]
      exact h2.commits
  cases a with
  | cancel =>
    simp only [step, Option.some.injEq] at hs
    subst hs
    exact ⟨h2.tags, h2.commits⟩
  | read r =>
    unfold step at hs
    cases hpc : s.pc <;> simp only [hpc] at hs <;> try exact Option.noConfusion hs
    simp only [Option.some.injEq] at hs
    subst hs
    have := snoc_main (Event.ReadMessage r) rfl rfl
    exact ⟨this.tags, this.commits⟩
  | main =>
    simp only [step] at hs
    unfold stepMain at hs
    cases hpc : s.pc <;> simp only [hpc] at hs <;> try exact Option.noConfusion hs
    · rename_i err
      by_cases he : err = Error.EOF
      · rw [if_pos he] at hs
        simp only [Option.some.injEq] at hs
        subst hs
        have := snoc_main (Event.Sleep (10 * Millisecond)) rfl rfl
        exact ⟨this.tags, this.commits⟩
      · rw [if_neg he] at hs
        split at hs <;>
        · simp only [Option.some.injEq] at hs
          subst hs
          exact ⟨h2.tags, h2.commits⟩
    · split at hs
      · simp only [Option.some.injEq] at hs
        subst hs
        exact ⟨h2.tags, h2.commits⟩
      · exact Option.noConfusion hs
    · simp only [Option.some.injEq] at hs
      subst hs
      exact ⟨h2.tags, h2.commits⟩
    · split at hs
      · simp only [Option.some.injEq] at hs
        subst hs
        exact ⟨h2.tags, h2.commits⟩
      · exact Option.noConfusion hs
  | go env =>
    unfold step at hs
    cases hpc : s.pc <;> simp only [hpc] at hs <;> try exact Option.noConfusion hs
    simp only [Option.some.injEq] at hs
    subst hs
    refine ⟨h2.tags, ?_⟩
    simp only [List.map_append, List.map_cons, List.map_nil, List.flatten_append,
      List.flatten_cons, List.flatten_nil, committed, List.append_nil]
    exact h2.commits
  | close r =>
    unfold step at hs
    cases hpc : s.pc <;> simp only [hpc] at hs <;> try exact Option.noConfusion hs
    simp only [Option.some.injEq] at hs
    subst hs
    have := snoc_main (Event.Close r) rfl rfl
    exact ⟨this.tags, this.commits⟩
  | worker j =>
    simp only [step] at hs
    unfold stepWorker at hs
    cases hw : s.workers[j]? with
    | none => rw [hw] at hs; exact Option.noConfusion hs
    | some w =>
      rw [hw] at hs
      simp only at hs
      have hmem := mem_of_getElem? hw
      obtain ⟨w1, _, _⟩ := h.wf w hmem
      obtain ⟨m, env, past, todo, slot, counted⟩ := w
      simp only at w1 hs
      have same : ∀ v : Worker, v.past = past →
          TraceInv { s with workers := s.workers.set j v } := by
        intro v hv
        refine ⟨h2.tags, ?_⟩
        have := flatten_set_perm (fun w => committed w.past) [] s.workers j _ v hw
          (by simp [hv])
        simp only [List.append_nil] at this
        exact h2.commits.trans this.symm
      cases todo with
      | cons e rest =>
        simp only [Option.some.injEq] at hs
        subst hs
        have hg : e.byGoroutine = true :=
          dispatch_byGoroutine p env m e (by rw [← w1]; simp)
        refine ⟨?_, ?_⟩
        · intro x hx
          simp only [List.mem_append, List.mem_singleton] at hx
          rcases hx with hx | hx
          · exact h2.tags x hx
          · subst hx
            exact ⟨fun hh => by simp at hh, fun _ => hg⟩
        · simp only [calls_snoc, committed_append]
          have := flatten_set_perm (fun w => committed w.past) (committed [e]) s.workers j _
            ⟨m, env, past ++ [e], rest, slot, counted⟩ hw (by simp [committed_append])
          exact (List.Perm.append_right _ h2.commits).trans this.symm
      | nil =>
        simp only at hs
        split at hs
        · split at hs
          · simp only [Option.some.injEq] at hs
            subst hs
            have := same ⟨m, env, past, [], false, counted⟩ rfl
            exact ⟨this.tags, this.commits⟩
          · exact Option.noConfusion hs
        · split at hs
          · split at hs
            · simp only [Option.some.injEq] at hs
              subst hs
              have := same ⟨m, env, past, [], slot, false⟩ rfl
              exact ⟨this.tags, this.commits⟩
            · simp only [Option.some.injEq] at hs
              subst hs
              exact ⟨h2.tags, h2.commits⟩
          · exact Option.noConfusion hs

theorem traceInv_run (p : Processor) : ∀ (as : List Action) (s t : State), Inv p s →
    TraceInv s → run p s as = some t → TraceInv t := by
  intro as
  induction as with
  | nil =>
    intro s t _ h2 hr
    simp only [run, Option.some.injEq] at hr
    subst hr
    exact h2
  | cons a as ih =>
    intro s t h h2 hr
    simp only [run] at hr
    cases hst : step p s a with
    | none => rw [hst] at hr; exact Option.noConfusion hr
    | some u =>
      rw [hst] at hr
      exact ih u t (inv_step p s u a h hst) (traceInv_step p s u a h h2 hst) hr

theorem traceInv_reachable (p : Processor) (s : State) (h : Reachable p s) : TraceInv s := by
  obtain ⟨as, hr⟩ := h
  exact traceInv_run p as (init p) s (inv_init p) (traceInv_init p) hr

theorem closes_calls (t : List (Option Nat × Event))
    (h : ∀ x ∈ t, x.1.isSome = true → x.2.byGoroutine = true) :
    closes (calls t) = closes (mainCalls t) := by
  induction t with
  | nil => rfl
  | cons x xs ih =>
    have ih := ih (fun y hy => h y (List.mem_cons_of_mem _ hy))
    have hx := h x (List.mem_cons_self _ _)
    obtain ⟨c, e⟩ := x
    cases c with
    | none =>
      have e1 : calls ((none, e) :: xs) = [e] ++ calls xs := rfl
      have e2 : mainCalls ((none, e) :: xs) = [e] ++ mainCalls xs := by simp [mainCalls]
      rw [e1, e2, closes_append, closes_append, ih]
    | some j =>
      have e1 : calls ((some j, e) :: xs) = [e] ++ calls xs := rfl
      have e2 : mainCalls ((some j, e) :: xs) = mainCalls xs := by simp [mainCalls]
      rw [e1, e2, closes_append, ih]
      have := hx rfl
      cases e <;> simp [Event.byGoroutine, closes] at this ⊢

theorem received_calls (t : List (Option Nat × Event))
    (h : ∀ x ∈ t, x.1.isSome = true → x.2.byGoroutine = true) :
    received (calls t) = received (mainCalls t) := by
  induction t with
  | nil => rfl
  | cons x xs ih =>
    have ih := ih (fun y hy => h y (List.mem_cons_of_mem _ hy))
    have hx := h x (List.mem_cons_self _ _)
    obtain ⟨c, e⟩ := x
    cases c with
    | none =>
      have e1 : calls ((none, e) :: xs) = [e] ++ calls xs := rfl
      have e2 : mainCalls ((none, e) :: xs) = [e] ++ mainCalls xs := by simp [mainCalls]
      rw [e1, e2, received_append, received_append, ih]
    | some j =>
      have e1 : calls ((some j, e) :: xs) = [e] ++ calls xs := rfl
      have e2 : mainCalls ((some j, e) :: xs) = mainCalls xs := by simp [mainCalls]
      rw [e1, e2, received_append, ih]
      have := hx rfl
      cases e <;> simp [Event.byGoroutine, received] at this ⊢

/-- When every goroutine has made all the calls of its body, the commits of the goroutines
are the messages of the goroutines. -/
theorem commits_finished (p : Processor) (ws : List Worker)
    (h : ∀ w ∈ ws, w.past = dispatch p w.env w.m) :
    (ws.map (fun w => committed w.past)).flatten = ws.map (fun w => w.m) := by
  induction ws with
  | nil => rfl
  | cons w ws ih =>
    simp only [List.map_cons, List.flatten_cons]
    rw [ih (fun v hv => h v (List.mem_cons_of_mem _ hv)), h w (List.mem_cons_self _ _),
      dispatch_committed]
    rfl

/-- C6: in every state that a run of `Start` with `MaxWorkers >= 1` reaches, the number of
goroutines that hold a slot is at most the number of elements in the channel `sem`, which
is at most `MaxWorkers`; and a goroutine that has given up its slot has made all the calls
of its body before, every attempt and the commit of its message included. -/
theorem C6_in_flight_bounded (p : Processor) (s : State) (h : Reachable p s)
    (hN : 1 ≤ p.MaxWorkers) :
    inFlight s ≤ s.sem ∧ (s.sem : Int) ≤ p.MaxWorkers ∧ (inFlight s : Int) ≤ p.MaxWorkers ∧
    ∀ j w, s.workers[j]? = some w →
      w.slot = true ∨ (callsOf j s.trace = dispatch p w.env w.m ∧
        (callsOf j s.trace).getLast? = some (Event.CommitMessage w.m)) := by
  have hi := inv_reachable p s h
  have h1 := hi.sem_eq
  have h2 : (s.sem : Int) ≤ p.MaxWorkers := by
    rcases hi.sem_le with h0 | h0
    · omega
    · exact h0
  refine ⟨by omega, h2, by omega, ?_⟩
  intro j w hw
  by_cases hs : w.slot = true
  · exact Or.inl hs
  · right
    obtain ⟨w1, w2, _⟩ := hi.wf w (mem_of_getElem? hw)
    have ht := w2 (by simpa using hs)
    rw [ht, List.append_nil] at w1
    have hp : callsOf j s.trace = dispatch p w.env w.m := by
      rw [hi.past_eq j]
      simp [pastOf, hw, w1]
    exact ⟨hp, by rw [hp]; simp [dispatch]⟩

/-- C6 at a concrete input: the state of the test processor while its first goroutine is
inside its first attempt. -/
theorem C6_in_flight_bounded_witness :
    inFlight (stateAfter testProcessor runInFlight) = 1 ∧
    inFlight (stateAfter testProcessor runInFlight) ≤ (stateAfter testProcessor runInFlight).sem ∧
    ((stateAfter testProcessor runInFlight).sem : Int) ≤ testProcessor.MaxWorkers :=
  have h := C6_in_flight_bounded testProcessor (stateAfter testProcessor runInFlight)
    ⟨runInFlight, by rfl⟩ (by decide)
  ⟨by rfl, h.1, h.2.1⟩

theorem stepsLeft_set (l : List Worker) (j : Nat) (w v : Worker) (h : l[j]? = some w)
    (hv : v.stepsLeft + 1 = w.stepsLeft) : stepsLeft (l.set j v) + 1 = stepsLeft l := by
  induction l generalizing j with
  | nil => simp at h
  | cons x xs ih =>
    cases j with
    | zero =>
      simp only [List.getElem?_cons_zero, Option.some.injEq] at h
      subst h
      simp only [stepsLeft, List.set_cons_zero, List.map_cons, List.sum_cons]
      omega
    | succ j =>
      simp only [List.getElem?_cons_succ] at h
      have := ih j h
      simp only [stepsLeft, List.set_cons_succ, List.map_cons, List.sum_cons] at this ⊢
      omega

theorem stepsLeft_pos (l : List Worker) (h : 0 < stepsLeft l) :
    ∃ (j : Nat) (w : Worker), l[j]? = some w ∧ 0 < w.stepsLeft := by
  induction l with
  | nil => simp [stepsLeft] at h
  | cons x xs ih =>
    by_cases hx : 0 < x.stepsLeft
    · exact ⟨0, x, by simp, hx⟩
    · have : 0 < stepsLeft xs := by
        simp only [stepsLeft, List.map_cons, List.sum_cons] at h ⊢
        omega
      obtain ⟨j, w, hw, hp⟩ := ih this
      exact ⟨j + 1, w, by rw [List.getElem?_cons_succ]; exact hw, hp⟩

theorem run_append (p : Processor) : ∀ (as bs : List Action) (s t u : State),
    run p s as = some t → run p t bs = some u → run p s (as ++ bs) = some u := by
  intro as
  induction as with
  | nil =>
    intro bs s t u h1 h2
    simp only [run, Option.some.injEq] at h1
    subst h1
    exact h2
  | cons a as ih =>
    intro bs s t u h1 h2
    simp only [run, List.cons_append] at h1 ⊢
    cases hst : step p s a with
    | none => rw [hst] at h1; exact Option.noConfusion h1
    | some v =>
      rw [hst] at h1
      simp only at h1 ⊢
      exact ih bs v t u h1 h2

/-- A step of a goroutine that has not finished: it can happen, it leaves the receive loop
where it is, and it takes one step off what the goroutines have still to do. -/
theorem worker_step_progress (p : Processor) (s : State) (h : Inv p s) (j : Nat) (w : Worker)
    (hw : s.workers[j]? = some w) (hc : w.counted = true) :
    ∃ t, step p s (Action.worker j) = some t ∧ t.pc = s.pc ∧
      stepsLeft t.workers + 1 = stepsLeft s.workers := by
  have hmem := mem_of_getElem? hw
  simp only [step]
  unfold stepWorker
  rw [hw]
  simp only
  obtain ⟨m, env, past, todo, slot, counted⟩ := w
  simp only at hc
  subst hc
  cases todo with
  | cons e rest =>
    exact ⟨_, rfl, rfl, stepsLeft_set _ _ _ _ hw (by simp [Worker.stepsLeft]; omega)⟩
  | nil =>
    simp only
    by_cases hsl : slot = true
    · subst hsl
      have hpos : 0 < s.workers.countP (fun w => w.slot) :=
        List.countP_pos_iff.mpr ⟨_, hmem, rfl⟩
      have hsem : 0 < s.sem := by
        have := h.sem_eq
        unfold inFlight at this
        omega
      rw [if_pos rfl, if_pos hsem]
      exact ⟨_, rfl, rfl, stepsLeft_set _ _ _ _ hw (by simp [Worker.stepsLeft])⟩
    · have hsl2 : slot = false := by simpa using hsl
      subst hsl2
      have hpos : 0 < s.workers.countP (fun w => w.counted) :=
        List.countP_pos_iff.mpr ⟨_, hmem, rfl⟩
      have hwg : 0 < s.wg := by
        have := h.wg_eq
        unfold notDone at this
        omega
      rw [if_pos True.intro, if_pos hwg]
      exact ⟨_, rfl, rfl, stepsLeft_set _ _ _ _ hw (by simp [Worker.stepsLeft])⟩

/-- The goroutines can always run to their end: from every state of a run there are steps
of goroutines alone after which every goroutine has finished, the receive loop being
where it was. -/
theorem workers_can_finish (p : Processor) :
    ∀ (n : Nat) (s : State), Inv p s → stepsLeft s.workers = n →
      ∃ (js : List Nat) (t : State), run p s (js.map Action.worker) = some t ∧
        t.pc = s.pc ∧ Inv p t ∧ ∀ w ∈ t.workers, w.counted = false := by
  intro n
  induction n with
  | zero =>
    intro s h h0
    refine ⟨[], s, rfl, rfl, h, ?_⟩
    intro w hw
    by_contra hc
    have hc2 : w.counted = true := by simpa using hc
    have hle : w.stepsLeft ≤ stepsLeft s.workers := by
      unfold stepsLeft
      exact List.single_le_sum (fun _ _ => Nat.zero_le _) _ (List.mem_map_of_mem _ hw)
    have : 0 < w.stepsLeft := by simp [Worker.stepsLeft, hc2]
    omega
  | succ n ih =>
    intro s h hn
    obtain ⟨j, w, hw, hp⟩ := stepsLeft_pos s.workers (by omega)
    have hc : w.counted = true := by
      by_contra hc
      have hc2 : w.counted = false := by simpa using hc
      obtain ⟨_, w2, w3⟩ := h.wf w (mem_of_getElem? hw)
      have hs := w3 hc2
      have ht := w2 hs
      simp [Worker.stepsLeft, hc2, hs, ht] at hp
    obtain ⟨t, hst, hpc, hdec⟩ := worker_step_progress p s h j w hw hc
    obtain ⟨js, u, hrun, hupc, hinv, hall⟩ := ih t (inv_step p s t _ h hst) (by omega)
    refine ⟨j :: js, u, ?_, by rw [hupc, hpc], hinv, hall⟩
    simp only [List.map_cons, run, hst]
    exact hrun

/-- At `wg.Wait()` the counter of the wait group is the number of goroutines whose
deferred `wg.Done()` has not run. -/
theorem wait_wg (p : Processor) (s : State) (h : Inv p s) (hpc : s.pc = MainPc.wait) :
    s.wg = s.workers.countP (fun w => w.counted) := by
  have := h.wg_eq
  rw [hpc] at this
  simpa [notDone, pendingAdd] using this

/-- At `wg.Wait()` with every goroutine finished, the receive loop goes on to `Close`,
and whatever `Close` returns `Start` returns, with that call as the next and last call. -/
theorem wait_finished_returns (p : Processor) (s : State) (h : Inv p s)
    (hpc : s.pc = MainPc.wait) (hall : ∀ w ∈ s.workers, w.counted = false)
    (r : Option Error) :
    ∃ t u, step p s Action.main = some t ∧ t.pc = MainPc.close ∧ t.trace = s.trace ∧
      step p t (Action.close r) = some u ∧ u.pc = MainPc.returned r ∧
      u.trace = s.trace ++ [(none, Event.Close r)] ∧
      run p s [Action.main, Action.close r] = some u := by
  have hwg := wait_wg p s h hpc
  have hz : s.workers.countP (fun w => w.counted) = 0 :=
    List.countP_eq_zero.mpr (fun w hw => by simp [hall w hw])
  have h0 : s.wg = 0 := by omega
  have hmain : step p s Action.main = some { s with pc := MainPc.close } := by
    simp only [step]
    unfold stepMain
    rw [hpc]
    simp only
    rw [if_pos h0]
  refine ⟨{ s with pc := MainPc.close },
    { s with pc := MainPc.returned r, trace := s.trace ++ [(none, Event.Close r)] },
    hmain, rfl, rfl, rfl, rfl, rfl, ?_⟩
  simp only [run, hmain]
  rfl

/-- C7: in every state that a run of `Start` reaches, `Close` has been called exactly when
`Start` has returned, once, as the last call, and `Start` has returned its result; when
the receive loop is about to call `Close` or has returned, every goroutine has made all
the calls of its body, so the commits made are the received messages, each once. At
`wg.Wait()` the receive loop cannot go on while a goroutine has not finished; once every
goroutine has finished it goes on to `Close`, and whatever `Close` returns `Start` returns,
with that call of `Close` as the next and last call. A goroutine that has not finished is
never blocked, so from `wg.Wait()` the goroutines can always run to their end and `Start`
can return. -/
theorem C7_close_after_drain (p : Processor) (s : State) (h : Reachable p s) :
    closes (calls s.trace) = closedBy s.pc ∧
    (∀ r, s.pc = MainPc.returned r → s.trace.getLast? = some (none, Event.Close r)) ∧
    (s.pc.drained = true →
      received (calls s.trace) = s.workers.map (fun w => w.m) ∧
      (∀ j w, s.workers[j]? = some w → callsOf j s.trace = dispatch p w.env w.m) ∧
      (committed (calls s.trace)).Perm (received (calls s.trace))) ∧
    (s.pc = MainPc.wait →
      ((∃ w ∈ s.workers, w.counted = true) → step p s Action.main = none) ∧
      ((∀ w ∈ s.workers, w.counted = false) → ∀ r, ∃ t u,
        step p s Action.main = some t ∧ t.pc = MainPc.close ∧ t.trace = s.trace ∧
        step p t (Action.close r) = some u ∧ u.pc = MainPc.returned r ∧
        u.trace = s.trace ++ [(none, Event.Close r)] ∧
        run p s [Action.main, Action.close r] = some u)) ∧
    (∀ j w, s.workers[j]? = some w → w.counted = true →
      ∃ t, step p s (Action.worker j) = some t ∧ t.pc = s.pc) ∧
    (s.pc = MainPc.wait → ∀ r, ∃ (js : List Nat) (u : State),
      run p s (js.map Action.worker ++ [Action.main, Action.close r]) = some u ∧
      u.pc = MainPc.returned r) := by
  have hi := inv_reachable p s h
  have ht := traceInv_reachable p s h
  have htag : ∀ x ∈ s.trace, x.1.isSome = true → x.2.byGoroutine = true :=
    fun x hx => (ht.tags x hx).2
  refine ⟨by rw [closes_calls _ htag]; exact hi.closed, hi.last, ?_, ?_,
    fun j w hw hc => ?_, fun hpc r => ?_⟩
  · intro hd
    have hfin := drained_finished p s hi hd
    have hpast : ∀ w ∈ s.workers, w.past = dispatch p w.env w.m := by
      intro w hw
      have := (hi.wf w hw).1
      rw [(hfin w hw).2.2, List.append_nil] at this
      exact this
    have hrecv : received (calls s.trace) = s.workers.map (fun w => w.m) := by
      rw [received_calls _ htag, hi.recv]
      cases hpc : s.pc <;> rw [hpc] at hd <;> simp [MainPc.drained, pendingMsg] at hd ⊢
    refine ⟨hrecv, ?_, ?_⟩
    · intro j w hw
      rw [hi.past_eq j]
      simp [pastOf, hw, hpast w (mem_of_getElem? hw)]
    · rw [hrecv, ← commits_finished p s.workers hpast]
      exact ht.commits
  · intro hpc
    have hwg := wait_wg p s hi hpc
    constructor
    · rintro ⟨w, hw, hc⟩
      have hpos : 0 < s.workers.countP (fun w => w.counted) :=
        List.countP_pos_iff.mpr ⟨w, hw, by simpa using hc⟩
      have hne : ¬ s.wg = 0 := by omega
      simp only [step]
      unfold stepMain
      rw [hpc]
      simp only
      rw [if_neg hne]
    · intro hall r
      exact wait_finished_returns p s hi hpc hall r
  · obtain ⟨t, hst, hpc, _⟩ := worker_step_progress p s hi j w hw hc
    exact ⟨t, hst, hpc⟩
  · obtain ⟨js, t, hrun, htpc, hinv, hall⟩ :=
      workers_can_finish p (stepsLeft s.workers) s hi rfl
    obtain ⟨_, u, _, _, _, _, hu, _, hrun2⟩ :=
      wait_finished_returns p t hinv (by rw [htpc, hpc]) hall r
    exact ⟨js, u, run_append p _ _ s t u hrun hrun2, hu⟩

/-- C7 at concrete inputs. On the input of the test `TestProcessor_Start`: at `wg.Wait()`
with its three goroutines finished, the test processor goes on to `Close` and returns what
`Close` returns. With a goroutine in flight at `wg.Wait()`: the receive loop cannot go
on, and the goroutine can run to its end, after which `Start` returns. And the test
processor after a run to its return. -/
theorem C7_close_after_drain_witness :
    (stateAfter testProcessor runToWait).pc = MainPc.wait ∧
    committed (calls (stateAfter testProcessor runToWait).trace) = [msg1, msg2, msg3] ∧
    (∃ t u, step testProcessor (stateAfter testProcessor runToWait) Action.main = some t ∧
      t.pc = MainPc.close ∧ t.trace = (stateAfter testProcessor runToWait).trace ∧
      step testProcessor t (Action.close none) = some u ∧ u.pc = MainPc.returned none ∧
      u.trace = (stateAfter testProcessor runToWait).trace ++ [(none, Event.Close none)] ∧
      run testProcessor (stateAfter testProcessor runToWait)
        [Action.main, Action.close none] = some u) ∧
    (stateAfter testProcessor runToWaitInFlight).pc = MainPc.wait ∧
    step testProcessor (stateAfter testProcessor runToWaitInFlight) Action.main = none ∧
    (∃ (js : List Nat) (u : State),
      run testProcessor (stateAfter testProcessor runToWaitInFlight)
        (js.map Action.worker ++ [Action.main, Action.close none]) = some u ∧
      u.pc = MainPc.returned none) ∧
    (stateAfter testProcessor runToReturn).pc = MainPc.returned none ∧
    closes (calls (stateAfter testProcessor runToReturn).trace) = [none] ∧
    (committed (calls (stateAfter testProcessor runToReturn).trace)).Perm
      (received (calls (stateAfter testProcessor runToReturn).trace)) :=
  have hw := C7_close_after_drain testProcessor (stateAfter testProcessor runToWait)
    ⟨runToWait, by rfl⟩
  have hf := C7_close_after_drain testProcessor (stateAfter testProcessor runToWaitInFlight)
    ⟨runToWaitInFlight, by rfl⟩
  have h := C7_close_after_drain testProcessor (stateAfter testProcessor runToReturn)
    ⟨runToReturn, by rfl⟩
  ⟨by rfl, by rfl,
    (hw.2.2.2.1 (by rfl)).2 (fun w hmem => by
      have hc : w.counted ∈
          (stateAfter testProcessor runToWait).workers.map (fun w => w.counted) :=
        List.mem_map_of_mem _ hmem
      have hl : (stateAfter testProcessor runToWait).workers.map (fun w => w.counted) =
          [false, false, false] := by rfl
      rw [hl] at hc
      simpa using hc) none,
    by rfl,
    (hf.2.2.2.1 (by rfl)).1 (by
      have hany : (stateAfter testProcessor runToWaitInFlight).workers.any
          (fun w => w.counted) = true := by rfl
      simpa using List.any_eq_true.mp hany),
    hf.2.2.2.2.2 (by rfl) none,
    by rfl, h.1, (h.2.2.1 (by rfl)).2.2⟩

theorem workerCalls_snoc_main (t : List (Option Nat × Event)) (e : Event) :
    workerCalls (t ++ [(none, e)]) = workerCalls t := by
  simp [workerCalls, List.filter_append]

theorem workerCalls_snoc_worker (t : List (Option Nat × Event)) (j : Nat) (e : Event) :
    workerCalls (t ++ [(some j, e)]) = workerCalls t ++ [e] := by
  simp [workerCalls, List.filter_append]

theorem map_set_same {α : Type} (f : Worker → α) (l : List Worker) (j : Nat) (w v : Worker)
    (h : l[j]? = some w) (hv : f v = f w) : (l.set j v).map f = l.map f := by
  induction l generalizing j with
  | nil => simp at h
  | cons x xs ih =>
    cases j with
    | zero =>
      simp only [List.getElem?_cons_zero, Option.some.injEq] at h
      subst h
      simp [hv]
    | succ j =>
      simp only [List.getElem?_cons_succ] at h
      simp [ih j h]

/-- Adding calls to the record of the last goroutine adds them at the end of all records. -/
theorem flatten_set_last (f : Worker → List Event) (x : List Event) :
    ∀ (l : List Worker) (j : Nat) (w v : Worker), l[j]? = some w → j + 1 = l.length →
      f v = f w ++ x → ((l.set j v).map f).flatten = (l.map f).flatten ++ x := by
  intro l
  induction l with
  | nil => intro j w v h; simp at h
  | cons a as ih =>
    intro j w v h hj hv
    cases j with
    | zero =>
      simp only [List.getElem?_cons_zero, Option.some.injEq] at h
      subst h
      have : as = [] := by
        cases as with
        | nil => rfl
        | cons b bs => simp at hj
      subst this
      simp [hv]
    | succ j =>
      simp only [List.getElem?_cons_succ] at h
      simp only [List.length_cons] at hj
      simp only [List.set_cons_succ, List.map_cons, List.flatten_cons, List.append_assoc]
      rw [ih j w v h (by omega) hv]

theorem getElem?_set_other (l : List Worker) (j k : Nat) (v u : Worker) (hk : k ≠ j)
    (h : (l.set j v)[k]? = some u) : l[k]? = some u := by
  rw [List.getElem?_set_ne (Ne.symm hk)] at h
  exact h

theorem getElem?_set_self (l : List Worker) (j : Nat) (v u : Worker)
    (h : (l.set j v)[j]? = some u) : u = v := by
  rw [List.getElem?_set] at h
  simp only [if_true] at h
  split at h
  · exact (Option.some.inj h).symm
  · exact Option.noConfusion h

theorem serialInv_init (p : Processor) : SerialInv (init p) := by
  refine ⟨?_, ?_⟩
  · simp [init, workerCalls]
  · intro j w hw; simp [init] at hw

/-- Every step of a run of `Start` with `MaxWorkers = 1` keeps the goroutines in series. -/
theorem serialInv_step (p : Processor) (s t : State) (a : Action) (hN : p.MaxWorkers = 1)
    (h : Inv p s) (h3 : SerialInv s) (hs : step p s a = some t) : SerialInv t := by
  have snoc_main : ∀ e : Event, SerialInv { s with trace := s.trace ++ [(none, e)] } := by
    intro e
    exact ⟨by simp only [workerCalls_snoc_main]; exact h3.order, h3.butlast⟩
  cases a with
  | cancel =>
    simp only [step, Option.some.injEq] at hs
    subst hs
    exact ⟨h3.order, h3.butlast⟩
  | read r =>
    unfold step at hs
    cases hpc : s.pc <;> simp only [hpc] at hs <;> try exact Option.noConfusion hs
    simp only [Option.some.injEq] at hs
    subst hs
    have := snoc_main (Event.ReadMessage r)
    exact ⟨this.order, this.butlast⟩
  | main =>
    simp only [step] at hs
    unfold stepMain at hs
    cases hpc : s.pc <;> simp only [hpc] at hs <;> try exact Option.noConfusion hs
    · rename_i err
      by_cases he : err = Error.EOF
      · rw [if_pos he] at hs
        simp only [Option.some.injEq] at hs
        subst hs
        have := snoc_main (Event.Sleep (10 * Millisecond))
        exact ⟨this.order, this.butlast⟩
      · rw [if_neg he] at hs
        split at hs <;>
        · simp only [Option.some.injEq] at hs
          subst hs
          exact ⟨h3.order, h3.butlast⟩
    · split at hs
      · simp only [Option.some.injEq] at hs
        subst hs
        exact ⟨h3.order, h3.butlast⟩
      · exact Option.noConfusion hs
    · simp only [Option.some.injEq] at hs
      subst hs
      exact ⟨h3.order, h3.butlast⟩
    · split at hs
      · simp only [Option.some.injEq] at hs
        subst hs
        exact ⟨h3.order, h3.butlast⟩
      · exact Option.noConfusion hs
  | go env =>
    unfold step at hs
    cases hpc : s.pc <;> simp only [hpc] at hs <;> try exact Option.noConfusion hs
    simp only [Option.some.injEq] at hs
    subst hs
    have h1 := h.sem_eq
    rw [hpc] at h1
    simp only [pendingSlot, inFlight] at h1
    have h0 : s.workers.countP (fun w => w.slot) = 0 := by
      rcases h.sem_le with hz | hz
      · omega
      · rw [hN] at hz
        omega
    refine ⟨?_, ?_⟩
    · simp only [List.map_append, List.map_cons, List.map_nil, List.flatten_append,
        List.flatten_cons, List.flatten_nil, List.append_nil]
      exact h3.order
    · intro j w hw hj
      simp only [List.length_append, List.length_singleton] at hj
      rw [List.getElem?_append_left (by omega)] at hw
      have := List.countP_eq_zero.mp h0 w (mem_of_getElem? hw)
      simpa using this
  | close r =>
    unfold step at hs
    cases hpc : s.pc <;> simp only [hpc] at hs <;> try exact Option.noConfusion hs
    simp only [Option.some.injEq] at hs
    subst hs
    have := snoc_main (Event.Close r)
    exact ⟨this.order, this.butlast⟩
  | worker j =>
    simp only [step] at hs
    unfold stepWorker at hs
    cases hw : s.workers[j]? with
    | none => rw [hw] at hs; exact Option.noConfusion hs
    | some w =>
      rw [hw] at hs
      simp only at hs
      have hmem := mem_of_getElem? hw
      have hjlt : j < s.workers.length := by
        rw [List.getElem?_eq_some] at hw
        exact hw.1
      obtain ⟨_, w2, _⟩ := h.wf w hmem
      have hbl := h3.butlast j w hw
      obtain ⟨m, env, past, todo, slot, counted⟩ := w
      simp only at w2 hs hbl
      have same : ∀ v : Worker, v.past = past → v.slot = false →
          SerialInv { s with workers := s.workers.set j v } := by
        intro v hv hvs
        refine ⟨?_, ?_⟩
        · simp only
          rw [map_set_same (fun w => w.past) _ _ _ v hw hv]
          exact h3.order
        · intro k u hu hk
          simp only [List.length_set] at hk
          by_cases hkj : k = j
          · subst hkj
            rw [getElem?_set_self _ _ _ _ hu]
            exact hvs
          · exact h3.butlast k u (getElem?_set_other _ _ _ _ _ hkj hu) hk
      cases todo with
      | cons e rest =>
        simp only [Option.some.injEq] at hs
        subst hs
        have hslot : slot = true := by
          by_contra hc
          exact List.noConfusion (w2 (by simpa using hc))
        have hlast : j + 1 = s.workers.length := by
          by_contra hc
          have := hbl (by omega)
          rw [hslot] at this
          exact Bool.noConfusion this
        refine ⟨?_, ?_⟩
        · simp only [workerCalls_snoc_worker]
          rw [flatten_set_last (fun w => w.past) [e] _ _ _
            ⟨m, env, past ++ [e], rest, slot, counted⟩ hw hlast rfl]
          rw [h3.order]
        · intro k u hu hk
          simp only [List.length_set] at hk
          have hkj : k ≠ j := by omega
          exact h3.butlast k u (getElem?_set_other _ _ _ _ _ hkj hu) hk
      | nil =>
        simp only at hs
        split at hs
        · split at hs
          · simp only [Option.some.injEq] at hs
            subst hs
            have := same ⟨m, env, past, [], false, counted⟩ rfl rfl
            exact ⟨this.order, this.butlast⟩
          · exact Option.noConfusion hs
        · rename_i hsl
          have hsl2 : slot = false := by simpa using hsl
          split at hs
          · split at hs
            · simp only [Option.some.injEq] at hs
              subst hs
              have := same ⟨m, env, past, [], slot, false⟩ rfl hsl2
              exact ⟨this.order, this.butlast⟩
            · simp only [Option.some.injEq] at hs
              subst hs
              exact ⟨h3.order, h3.butlast⟩
          · exact Option.noConfusion hs

theorem serialInv_run (p : Processor) (hN : p.MaxWorkers = 1) :
    ∀ (as : List Action) (s t : State), Inv p s → SerialInv s → run p s as = some t →
      SerialInv t := by
  intro as
  induction as with
  | nil =>
    intro s t _ h3 hr
    simp only [run, Option.some.injEq] at hr
    subst hr
    exact h3
  | cons a as ih =>
    intro s t h h3 hr
    simp only [run] at hr
    cases hst : step p s a with
    | none => rw [hst] at hr; exact Option.noConfusion hr
    | some u =>
      rw [hst] at hr
      exact ih u t (inv_step p s u a h hst) (serialInv_step p s u a hN h h3 hst) hr

theorem serialInv_reachable (p : Processor) (s : State) (hN : p.MaxWorkers = 1)
    (h : Reachable p s) : SerialInv s := by
  obtain ⟨as, hr⟩ := h
  exact serialInv_run p hN as (init p) s (inv_init p) (serialInv_init p) hr

theorem processed_calls (t : List (Option Nat × Event))
    (h : ∀ x ∈ t, x.1 = none → x.2.byLoop = true) :
    processed (calls t) = processed (workerCalls t) := by
  induction t with
  | nil => rfl
  | cons x xs ih =>
    have ih := ih (fun y hy => h y (List.mem_cons_of_mem _ hy))
    have hx := h x (List.mem_cons_self _ _)
    obtain ⟨c, e⟩ := x
    cases c with
    | none =>
      have e1 : calls ((none, e) :: xs) = [e] ++ calls xs := rfl
      have e2 : workerCalls ((none, e) :: xs) = workerCalls xs := by simp [workerCalls]
      rw [e1, e2, processed_append, ih]
      have := hx rfl
      cases e <;> simp [Event.byLoop, processed] at this ⊢
    | some j =>
      have e1 : calls ((some j, e) :: xs) = [e] ++ calls xs := rfl
      have e2 : workerCalls ((some j, e) :: xs) = [e] ++ workerCalls xs := by
        simp [workerCalls]
      rw [e1, e2, processed_append, processed_append, ih]

theorem committed_calls (t : List (Option Nat × Event))
    (h : ∀ x ∈ t, x.1 = none → x.2.byLoop = true) :
    committed (calls t) = committed (workerCalls t) := by
  induction t with
  | nil => rfl
  | cons x xs ih =>
    have ih := ih (fun y hy => h y (List.mem_cons_of_mem _ hy))
    have hx := h x (List.mem_cons_self _ _)
    obtain ⟨c, e⟩ := x
    cases c with
    | none =>
      have e1 : calls ((none, e) :: xs) = [e] ++ calls xs := rfl
      have e2 : workerCalls ((none, e) :: xs) = workerCalls xs := by simp [workerCalls]
      rw [e1, e2, committed_append, ih]
      have := hx rfl
      cases e <;> simp [Event.byLoop, committed] at this ⊢
    | some j =>
      have e1 : calls ((some j, e) :: xs) = [e] ++ calls xs := rfl
      have e2 : workerCalls ((some j, e) :: xs) = [e] ++ workerCalls xs := by
        simp [workerCalls]
      rw [e1, e2, committed_append, committed_append, ih]

/-- When the first attempt returns `nil`, the goroutine calls `Process` once. -/
theorem processed_dispatch_success (p : Processor) (env : Env) (m : Message)
    (hR : 1 ≤ p.RetryMax) (ho : outcome env (entryOf m) 0 = none) :
    processed (dispatch p env m) = [entryOf m] := by
  rw [processed_dispatch]
  obtain ⟨n, hn⟩ : ∃ n, p.RetryMax.toNat = n + 1 := ⟨p.RetryMax.toNat - 1, by omega⟩
  rw [hn, retryLoop_succ p env (entryOf m) n 0 (by push_cast; omega), ho]
  simp [processed, processed_append, processed_index]

/-- Goroutines in series: a projection of the calls made so far, followed by the
projection of the calls that the last goroutine has still to make, gives one value for
each goroutine, in launch order. -/
theorem serial_proj {α : Type} (proj : List Event → List α) (hnil : proj [] = [])
    (happ : ∀ a b, proj (a ++ b) = proj a ++ proj b) (g : Worker → α) :
    ∀ ws : List Worker, (∀ w ∈ ws, proj (w.past ++ w.todo) = [g w]) →
      (∀ j w, ws[j]? = some w → j + 1 < ws.length → w.todo = []) →
      proj (ws.map (fun w => w.past)).flatten ++
        (match ws.getLast? with
          | some w => proj w.todo
          | none => []) = ws.map g := by
  intro ws
  induction ws with
  | nil => intro _ _; simp [hnil]
  | cons a as ih =>
    intro h1 h2
    cases as with
    | nil =>
      have := h1 a (List.mem_cons_self _ _)
      rw [happ] at this
      simp [this]
    | cons b bs =>
      have ha : a.todo = [] := h2 0 a rfl (by simp)
      have hp := h1 a (List.mem_cons_self _ _)
      rw [ha, List.append_nil] at hp
      have ih := ih (fun w hw => h1 w (List.mem_cons_of_mem _ hw))
        (fun j w hw hj => h2 (j + 1) w (by simpa using hw) (by simp at hj ⊢; omega))
      simp only [List.map_cons, List.flatten_cons, happ, hp, List.getLast?_cons_cons] at ih ⊢
      rw [List.append_assoc, ih]
      rfl

/-- C8 (amended): with `MaxWorkers = 1`, `RetryMax >= 1`, messages with non-empty keys and
values and a service that always succeeds, in every state that a run of `Start` reaches the
entries passed to `Process` so far and the messages committed so far follow the receive
order, and when the receive loop has passed `wg.Wait()` there is exactly one `Process`
call and one commit for each received message, in receive order, the goroutines having run
one after the other. -/
theorem C8_single_worker_in_order (p : Processor) (s : State) (h : Reachable p s)
    (hN : p.MaxWorkers = 1) (hR : 1 ≤ p.RetryMax)
    (hsink : ∀ w ∈ s.workers, ∀ i, Succeeds (w.env.LogService i))
    (hmsg : ∀ m ∈ received (calls s.trace), m.Key ≠ "" ∧ m.Value ≠ "") :
    (∃ rest, processed (calls s.trace) ++ rest = (received (calls s.trace)).map entryOf) ∧
    (∃ rest, committed (calls s.trace) ++ rest = received (calls s.trace)) ∧
    (s.pc.drained = true →
      processed (calls s.trace) = (received (calls s.trace)).map entryOf ∧
      committed (calls s.trace) = received (calls s.trace) ∧
      workerCalls s.trace = (s.workers.map (fun w => dispatch p w.env w.m)).flatten) := by
  have hi := inv_reachable p s h
  have ht := traceInv_reachable p s h
  have hs := serialInv_reachable p s hN h
  have htag : ∀ x ∈ s.trace, x.1.isSome = true → x.2.byGoroutine = true :=
    fun x hx => (ht.tags x hx).2
  have hloop : ∀ x ∈ s.trace, x.1 = none → x.2.byLoop = true :=
    fun x hx => (ht.tags x hx).1
  have hrecv : received (calls s.trace) = s.workers.map (fun w => w.m) ++ pendingMsg s.pc := by
    rw [received_calls _ htag, hi.recv]
  have hbl : ∀ j w, s.workers[j]? = some w → j + 1 < s.workers.length → w.todo = [] :=
    fun j w hw hj => (hi.wf w (mem_of_getElem? hw)).2.1 (hs.butlast j w hw hj)
  have hproc : ∀ w ∈ s.workers, processed (w.past ++ w.todo) = [entryOf w.m] := by
    intro w hw
    rw [(hi.wf w hw).1]
    have hm : w.m ∈ received (calls s.trace) := by
      rw [hrecv]
      exact List.mem_append_left _ (List.mem_map.mpr ⟨w, hw, rfl⟩)
    obtain ⟨hk, hv⟩ := hmsg w.m hm
    exact processed_dispatch_success p w.env w.m hR (hsink w hw 0 _ _ hk hv)
  have hcomm : ∀ w ∈ s.workers, committed (w.past ++ w.todo) = [w.m] := by
    intro w hw
    rw [(hi.wf w hw).1]
    exact dispatch_committed p w.env w.m
  have e1 := serial_proj processed rfl processed_append (fun w => entryOf w.m) s.workers
    hproc hbl
  have e2 := serial_proj committed rfl committed_append (fun w => w.m) s.workers hcomm hbl
  rw [← hs.order, ← processed_calls _ hloop] at e1
  rw [← hs.order, ← committed_calls _ hloop] at e2
  refine ⟨⟨(match s.workers.getLast? with
      | some w => processed w.todo
      | none => []) ++ (pendingMsg s.pc).map entryOf, ?_⟩,
    ⟨(match s.workers.getLast? with
      | some w => committed w.todo
      | none => []) ++ pendingMsg s.pc, ?_⟩, ?_⟩
  · rw [← List.append_assoc, e1, hrecv]
    simp
  · rw [← List.append_assoc, e2, hrecv]
  · intro hd
    have hfin := drained_finished p s hi hd
    have hpend : pendingMsg s.pc = [] := by
      cases hpc : s.pc <;> rw [hpc] at hd <;> simp [MainPc.drained, pendingMsg] at hd ⊢
    have hlast : ∀ {α : Type} (proj : List Event → List α), proj [] = [] →
        (match s.workers.getLast? with
          | some w => proj w.todo
          | none => []) = [] := by
      intro α proj hnil
      cases hl : s.workers.getLast? with
      | none => rfl
      | some w =>
        simp only
        rw [(hfin w (List.mem_of_getLast?_eq_some hl)).2.2, hnil]
    rw [hlast processed rfl, List.append_nil] at e1
    rw [hlast committed rfl, List.append_nil] at e2
    refine ⟨?_, ?_, ?_⟩
    · rw [e1, hrecv, hpend]
      simp
    · rw [e2, hrecv, hpend]
      simp
    · rw [hs.order]
      congr 1
      apply List.map_congr_left
      intro w hw
      have := (hi.wf w hw).1
      rw [(hfin w hw).2.2, List.append_nil] at this
      exact this

/-- The service of `okEnv` succeeds on every entry with non-empty ID and message. -/
theorem okEnv_succeeds (i : Nat) : Succeeds (okEnv.LogService i) := by
  intro ctx e h1 h2
  simp [okEnv, logServiceEnv, LogService.toInterface, LogService.Process, constClient, h1, h2]

/-- C8 (amended) at a concrete input: the test processor after a run to its return. -/
theorem C8_single_worker_in_order_witness :
    received (calls (stateAfter testProcessor runToReturn).trace) = [msg1, msg2] ∧
    processed (calls (stateAfter testProcessor runToReturn).trace) =
      (received (calls (stateAfter testProcessor runToReturn).trace)).map entryOf ∧
    committed (calls (stateAfter testProcessor runToReturn).trace) =
      received (calls (stateAfter testProcessor runToReturn).trace) :=
  have h := C8_single_worker_in_order testProcessor (stateAfter testProcessor runToReturn)
    ⟨runToReturn, by rfl⟩ rfl (by decide)
    (fun w hw i => by
      have he : w.env ∈ (stateAfter testProcessor runToReturn).workers.map (fun w => w.env) :=
        List.mem_map_of_mem _ hw
      have hl : (stateAfter testProcessor runToReturn).workers.map (fun w => w.env) =
          [okEnv, okEnv] := by rfl
      rw [hl] at he
      simp only [List.mem_cons, List.mem_singleton, or_self, List.not_mem_nil, or_false] at he
      rw [he]
      exact okEnv_succeeds i)
    (fun m hm => by
      have hl : received (calls (stateAfter testProcessor runToReturn).trace) =
          [msg1, msg2] := by rfl
      rw [hl] at hm
      simp only [List.mem_cons, List.mem_singleton, List.not_mem_nil, or_false] at hm
      rcases hm with hm | hm <;> subst hm <;> decide)
  ⟨by rfl, (h.2.2 (by rfl)).1, (h.2.2 (by rfl)).2.1⟩

/-- C8 (as stated) fails: with `MaxWorkers = 1`, `RetryMax = 0`, two messages with non-empty
keys and values and a service that always succeeds, `Start` runs to its return, commits
both messages in receive order, and never calls `Process`. -/
theorem C8_counterexample_no_attempt :
    (run noRetryProcessor (init noRetryProcessor) runNoRetry).isSome = true ∧
    (stateAfter noRetryProcessor runNoRetry).pc = MainPc.returned none ∧
    received (calls (stateAfter noRetryProcessor runNoRetry).trace) = [msg1, msg2] ∧
    committed (calls (stateAfter noRetryProcessor runNoRetry).trace) = [msg1, msg2] ∧
    processed (calls (stateAfter noRetryProcessor runNoRetry).trace) = [] ∧
    ¬ (processed (calls (stateAfter noRetryProcessor runNoRetry).trace) =
        (received (calls (stateAfter noRetryProcessor runNoRetry).trace)).map entryOf) := by
  refine ⟨by rfl, by rfl, by rfl, by rfl, by rfl, ?_⟩
  decide

/-- C10: the code at the failing input. In any state where the context is cancelled and
the receive loop is at `ReadMessage`, an answer `io.EOF` makes the loop sleep 10 ms and
go back to `ReadMessage`, where another receive can happen; any other error makes it
leave the loop for `wg.Wait()`. -/
theorem C10_eof_after_cancel_reads_again (p : Processor) (s : State)
    (hpc : s.pc = MainPc.read) (hd : s.done = true) :
    (∃ t, run p s [Action.read (Except.error Error.EOF), Action.main] = some t ∧
      t.pc = MainPc.read ∧ t.done = true ∧
      calls t.trace = calls s.trace ++
        [Event.ReadMessage (Except.error Error.EOF), Event.Sleep (10 * Millisecond)] ∧
      ∀ r, (step p t (Action.read r)).isSome = true) ∧
    (∀ err, err ≠ Error.EOF →
      ∃ t, run p s [Action.read (Except.error err), Action.main] = some t ∧
        t.pc = MainPc.wait ∧ ∀ r, step p t (Action.read r) = none) := by
  constructor
  · refine ⟨{ s with
      pc := MainPc.read
      trace := s.trace ++ [(none, Event.ReadMessage (Except.error Error.EOF)),
        (none, Event.Sleep (10 * Millisecond))] }, ?_, rfl, hd, by simp [calls], ?_⟩
    · simp [run, step, stepMain, hpc]
    · intro r
      simp [step]
  · intro err herr
    refine ⟨{ s with
      pc := MainPc.wait
      trace := s.trace ++ [(none, Event.ReadMessage (Except.error err))] }, ?_, rfl, ?_⟩
    · simp [run, step, stepMain, hpc, herr, hd]
    · intro r
      simp [step]

/-- C10 at a concrete input: the test processor, cancelled before its first receive, gets
`io.EOF` from `ReadMessage` and goes back to `ReadMessage`. -/
theorem C10_eof_after_cancel_reads_again_witness :
    ∃ t, run testProcessor (stateAfter testProcessor [Action.cancel])
        [Action.read (Except.error Error.EOF), Action.main] = some t ∧
      t.pc = MainPc.read ∧ t.done = true ∧
      calls t.trace = calls (stateAfter testProcessor [Action.cancel]).trace ++
        [Event.ReadMessage (Except.error Error.EOF), Event.Sleep (10 * Millisecond)] ∧
      ∀ r, (step testProcessor t (Action.read r)).isSome = true :=
  (C10_eof_after_cancel_reads_again testProcessor (stateAfter testProcessor [Action.cancel])
    (by rfl) (by rfl)).1

/-! ## `LogService.Process` -/

/-- The entry that `Process` hands to `Index`: a zero timestamp becomes `now`. -/
theorem Process_valid (s : LogService) (now : Time) (ctx : Context) (l : Log)
    (h1 : l.ID ≠ "") (h2 : l.Message ≠ "") :
    s.Process now ctx l =
      ([⟨ctx, s.index, l.ID, if l.Timestamp.IsZero then { l with Timestamp := now } else l⟩],
        s.esClient.Index ctx s.index l.ID
          (if l.Timestamp.IsZero then { l with Timestamp := now } else l)) := by
  unfold LogService.Process
  simp only [beq_iff_eq, Bool.or_eq_true, h1, h2, or_self, if_false]
  by_cases hz : l.Timestamp.IsZero = true
  · simp only [hz, if_true]
    cases hi : s.esClient.Index ctx s.index l.ID { l with Timestamp := now } <;> simp [hi]
  · simp only [hz]
    cases hi : s.esClient.Index ctx s.index l.ID l <;> simp [hi]

/-- C11: `LogService.Process` returns `nil` exactly when the ID of the entry is non-empty,
its message is non-empty and the `Index` call of the client returns `nil`; when the ID or
the message is empty it returns an error and makes no `Index` call. -/
theorem C11_process_nil_iff (s : LogService) (now : Time) (ctx : Context) (l : Log) :
    ((s.Process now ctx l).2 = none ↔
      l.ID ≠ "" ∧ l.Message ≠ "" ∧
        s.esClient.Index ctx s.index l.ID
          (if l.Timestamp.IsZero then { l with Timestamp := now } else l) = none) ∧
    ((l.ID = "" ∨ l.Message = "") →
      (s.Process now ctx l).2 ≠ none ∧ (s.Process now ctx l).1 = []) := by
  constructor
  · by_cases h1 : l.ID = ""
    · rw [Process_rejects s now ctx l (Or.inl h1)]
      simp [h1]
    · by_cases h2 : l.Message = ""
      · rw [Process_rejects s now ctx l (Or.inr h2)]
        simp [h2]
      · rw [Process_valid s now ctx l h1 h2]
        simp [h1, h2]
  · intro h
    rw [Process_rejects s now ctx l h]
    simp

/-- C11 at a concrete input: the entry of the second case of `TestProcess`, with empty ID
and empty message. -/
theorem C11_process_nil_iff_witness :
    (LogService.Process ⟨constClient none, "logs-index"⟩ 5 background
        { ID := "", Level := "INFO", Message := "" }).2 ≠ none ∧
    (LogService.Process ⟨constClient none, "logs-index"⟩ 5 background
        { ID := "", Level := "INFO", Message := "" }).1 = [] :=
  (C11_process_nil_iff ⟨constClient none, "logs-index"⟩ 5 background
    { ID := "", Level := "INFO", Message := "" }).2 (Or.inl rfl)

/-- C12 (as stated) fails: for the entry of the test, with ID "1", level "INFO" and no
message, and a client whose `Index` fails with "ES down", `Process` makes no `Index` call
and returns the validation error, not the error of the client. -/
theorem C12_counterexample_validation_error :
    entryWithoutMessage.ID ≠ "" ∧
    (constClient (some (Error.New "ES down"))).Index background "logs-index" "1"
        entryWithoutMessage = some (Error.New "ES down") ∧
    LogService.Process ⟨constClient (some (Error.New "ES down")), "logs-index"⟩ 5 background
        entryWithoutMessage =
      ([], some (Error.New "invalid log: empty ID or message")) ∧
    (LogService.Process ⟨constClient (some (Error.New "ES down")), "logs-index"⟩ 5 background
        entryWithoutMessage).2 ≠ some (Error.New "ES down") := by
  refine ⟨by decide, rfl, by rfl, by decide⟩

/-- C12 (amended): for every entry with non-empty ID and non-empty message, when the
`Index` call of the client fails with error `e`, `Process` returns that error `e`. -/
theorem C12_process_returns_index_error (s : LogService) (now : Time) (ctx : Context)
    (l : Log) (e : Error) (h1 : l.ID ≠ "") (h2 : l.Message ≠ "")
    (he : s.esClient.Index ctx s.index l.ID
      (if l.Timestamp.IsZero then { l with Timestamp := now } else l) = some e) :
    (s.Process now ctx l).2 = some e := by
  rw [Process_valid s now ctx l h1 h2]
  exact he

/-- C12 (amended) at a concrete input: the valid entry of `TestProcess` and a client that
fails with "ES down". -/
theorem C12_process_returns_index_error_witness :
    (LogService.Process ⟨constClient (some (Error.New "ES down")), "logs-index"⟩ 5 background
        validEntry).2 = some (Error.New "ES down") :=
  C12_process_returns_index_error ⟨constClient (some (Error.New "ES down")), "logs-index"⟩ 5
    background validEntry (Error.New "ES down") (by decide) (by decide) rfl

/-- C13: for every entry with non-empty ID and message, `Process` calls `Index` exactly
once, with the context it was given, the index of the service, the ID of the entry as
document id, and a body equal to the entry in every field but the timestamp, which is the
current time when the entry has a zero timestamp and the timestamp of the entry otherwise. -/
theorem C13_process_index_call (s : LogService) (now : Time) (ctx : Context) (l : Log)
    (h1 : l.ID ≠ "") (h2 : l.Message ≠ "") :
    ∃ body, (s.Process now ctx l).1 = [⟨ctx, s.index, l.ID, body⟩] ∧
      body.ID = l.ID ∧ body.Level = l.Level ∧ body.Message = l.Message ∧
      body.Source = l.Source ∧
      (l.Timestamp.IsZero = true → body.Timestamp = now) ∧
      (l.Timestamp.IsZero = false → body = l) := by
  rw [Process_valid s now ctx l h1 h2]
  by_cases hz : l.Timestamp.IsZero = true
  · exact ⟨{ l with Timestamp := now }, by simp [hz], rfl, rfl, rfl, rfl, fun _ => rfl,
      fun h => by rw [hz] at h; exact Bool.noConfusion h⟩
  · exact ⟨l, by simp [hz], rfl, rfl, rfl, rfl, fun h => absurd h hz, fun _ => rfl⟩

/-- C13 at a concrete input: the valid entry of `TestProcess`, whose timestamp is zero, at
a moment when the clock reads 5. -/
theorem C13_process_index_call_witness :
    ∃ body, (LogService.Process ⟨constClient none, "logs-index"⟩ 5 background validEntry).1 =
        [⟨background, "logs-index", "1", body⟩] ∧
      body.ID = "1" ∧ body.Level = "INFO" ∧ body.Message = "Test log message" ∧
      body.Source = "unit-test" ∧
      (validEntry.Timestamp.IsZero = true → body.Timestamp = 5) ∧
      (validEntry.Timestamp.IsZero = false → body = validEntry) :=
  C13_process_index_call ⟨constClient none, "logs-index"⟩ 5 background validEntry
    (by decide) (by decide)

/-! ## `LogHandler.GetLogByID` -/

/-- C14: `GetLogByID` responds 400, without any search, when the `id` parameter is missing
or empty; otherwise it makes one `SearchLogs` call, a term query on `id` with size 1 on the
index of the handler, and responds 500 when that call returns an error, 404 when it returns
no log, and 200 with the encoding of the first log otherwise. -/
theorem C14_get_log_by_id (h : LogHandler) (Encode : Log → String) (r : Request) :
    ((r.query "id" = [] ∨ (r.query "id").head? = some "") →
      (h.GetLogByID Encode r).2.status = 400 ∧ (h.GetLogByID Encode r).1 = []) ∧
    (∀ id rest, r.query "id" = id :: rest → id ≠ "" →
      (h.GetLogByID Encode r).1 =
        [⟨r.ctx, h.Index,
          QueryValue.obj [("term", QueryValue.obj [("id", QueryValue.str id)])], 1⟩] ∧
      (∀ logs err,
        h.LogService.SearchLogs r.ctx h.Index
          (QueryValue.obj [("term", QueryValue.obj [("id", QueryValue.str id)])]) 1 =
            (logs, some err) →
        (h.GetLogByID Encode r).2.status = 500) ∧
      (h.LogService.SearchLogs r.ctx h.Index
          (QueryValue.obj [("term", QueryValue.obj [("id", QueryValue.str id)])]) 1 =
            ([], none) →
        (h.GetLogByID Encode r).2.status = 404) ∧
      (∀ l logs,
        h.LogService.SearchLogs r.ctx h.Index
          (QueryValue.obj [("term", QueryValue.obj [("id", QueryValue.str id)])]) 1 =
            (l :: logs, none) →
        (h.GetLogByID Encode r).2 = { status := 200, body := Encode l })) := by
  constructor
  · intro hq
    have hid : Values.Get r.query "id" = "" := by
      unfold Values.Get
      rcases hq with hq | hq
      · rw [hq]
      · cases hv : r.query "id" with
        | nil => rfl
        | cons x xs =>
          rw [hv] at hq
          simp only [List.head?_cons, Option.some.injEq] at hq
          exact hq
    unfold LogHandler.GetLogByID
    simp [hid, httpError, StatusBadRequest]
  · intro id rest hq hne
    have hid : Values.Get r.query "id" = id := by
      unfold Values.Get
      rw [hq]
    unfold LogHandler.GetLogByID
    simp only [hid, beq_iff_eq, hne, if_false]
    refine ⟨?_, ?_, ?_, ?_⟩
    · cases hs : h.LogService.SearchLogs r.ctx h.Index
          (QueryValue.obj [("term", QueryValue.obj [("id", QueryValue.str id)])]) 1 with
      | mk logs err =>
        cases err with
        | some e => rfl
        | none => cases logs <;> rfl
    · intro logs err hs
      rw [hs]
      rfl
    · intro hs
      rw [hs]
      rfl
    · intro l logs hs
      rw [hs]
      rfl

/-- C14 at a concrete input: the handler of `TestLogHandler_GetLogByID` on a request
without `id`, and on the request `id=1`, whose search returns one log. -/
theorem C14_get_log_by_id_witness :
    ((testHandler.GetLogByID (fun l => l.ID) requestWithoutId).2.status = 400 ∧
      (testHandler.GetLogByID (fun l => l.ID) requestWithoutId).1 = []) ∧
    (testHandler.GetLogByID (fun l => l.ID) (requestWithId "1")).2 =
      { status := 200, body := "1" } :=
  ⟨(C14_get_log_by_id testHandler (fun l => l.ID) requestWithoutId).1 (Or.inl rfl),
   ((C14_get_log_by_id testHandler (fun l => l.ID) (requestWithId "1")).2 "1" [] rfl
      (by decide)).2.2.2 { ID := "1", Message := "log1", Timestamp := 1700000000 } [] rfl⟩

/-! ## The waits of the goroutine -/

/-- The retry loop when every attempt it can make fails: it waits after each attempt, the
last one included, and the wait after the last attempt is its last call. -/
theorem retryLoop_all_fail (p : Processor) (env : Env) (l : Log) :
    ∀ fuel i, (∀ j, i ≤ j → j < i + fuel → outcome env l j ≠ none) →
      ((i + fuel : Nat) : Int) ≤ p.RetryMax →
      sleeps (retryLoop p env l fuel i) =
        (List.range' (i + 1) fuel).map (fun k => Duration.mul p.RetryBackoff (k : Int)) ∧
      (1 ≤ fuel → ∃ pre, retryLoop p env l fuel i =
        pre ++ [Event.Sleep (Duration.mul p.RetryBackoff ((i + fuel : Nat) : Int))] ∧
        (processed pre).length = fuel) := by
  intro fuel
  induction fuel with
  | zero => intro i _ _; exact ⟨rfl, fun h => absurd h (by omega)⟩
  | succ n ih =>
    intro i hf hb
    have hi : (i : Int) < p.RetryMax := by push_cast at hb; omega
    obtain ⟨ih1, ih2⟩ := ih (i + 1) (fun j h1 h2 => hf j (by omega) (by omega))
      (by push_cast at hb ⊢; omega)
    rw [retryLoop_succ p env l n i hi]
    cases ho : outcome env l i with
    | none => exact absurd ho (hf i (le_refl _) (by omega))
    | some err =>
      simp only
      refine ⟨?_, fun _ => ?_⟩
      · simp only [sleeps, sleeps_append, sleeps_index, List.nil_append, ih1,
          List.range'_succ, List.map_cons]
        rfl
      · cases n with
        | zero =>
          refine ⟨Event.Process (WithTimeout (env.ctx i) (5 * Second)) l ::
            List.map Event.Index
              ((env.LogService i).Process (WithTimeout (env.ctx i) (5 * Second)) l).1, ?_, ?_⟩
          · simp [retryLoop]
          · simp [processed, processed_append, processed_index]
        | succ n =>
          obtain ⟨pre, hp, hl⟩ := ih2 (by omega)
          refine ⟨Event.Process (WithTimeout (env.ctx i) (5 * Second)) l ::
            (List.map Event.Index
              ((env.LogService i).Process (WithTimeout (env.ctx i) (5 * Second)) l).1 ++
            Event.Sleep (Duration.mul p.RetryBackoff ((i : Int) + 1)) :: pre), ?_, ?_⟩
          · rw [hp]
            simp only [List.cons_append, List.append_assoc]
            rw [show i + 1 + (n + 1) = i + (n + 1 + 1) by omega]
          · simp only [processed, processed_append, processed_index, List.nil_append,
              List.length_cons, hl]

/-- C15 (as stated) fails: with `RetryMax = 1` and an attempt that fails, the goroutine
waits `RetryBackoff` after its only, final attempt, and commits only after that wait. -/
theorem C15_counterexample_wait_after_final_attempt :
    dispatch ⟨1, 1, 300 * Millisecond⟩ (scriptedEnv fun _ => some (Error.New "ES down")) msg1 =
      [Event.Process ⟨false, some 5000000000⟩ (entryOf msg1), Event.Sleep 300000000,
       Event.CommitMessage msg1] ∧
    ¬ (sleeps (dispatch ⟨1, 1, 300 * Millisecond⟩
        (scriptedEnv fun _ => some (Error.New "ES down")) msg1) =
      (List.range' 1 (1 - 1)).map (fun k => Duration.mul (300 * Millisecond) (k : Int))) := by
  refine ⟨by rfl, ?_⟩
  decide

/-- C15 (amended): with `RetryMax >= 1`, when all `RetryMax` attempts fail the goroutine
waits after every failed attempt, the final one included: the waits are those after the
attempts `1 .. RetryMax` (`RetryBackoff * k` after the `k`-th, as a Go product), and the
commit follows the wait after the last attempt. -/
theorem C15_wait_after_every_failed_attempt (p : Processor) (env : Env) (m : Message)
    (hR : 1 ≤ p.RetryMax)
    (hf : ∀ k : Nat, 1 ≤ k → (k : Int) ≤ p.RetryMax → outcome env (entryOf m) (k - 1) ≠ none) :
    sleeps (dispatch p env m) =
      (List.range' 1 p.RetryMax.toNat).map (fun k => Duration.mul p.RetryBackoff (k : Int)) ∧
    ∃ pre, dispatch p env m =
        pre ++ [Event.Sleep (Duration.mul p.RetryBackoff p.RetryMax), Event.CommitMessage m] ∧
      ((processed pre).length : Int) = p.RetryMax := by
  obtain ⟨h1, h2⟩ := retryLoop_all_fail p env (entryOf m) p.RetryMax.toNat 0
    (fun j _ h2 => by
      have := hf (j + 1) (by omega) (by omega)
      simpa using this)
    (by omega)
  refine ⟨?_, ?_⟩
  · rw [dispatch_eq]
    simp only [sleeps_append, sleeps, List.append_nil]
    exact h1
  · obtain ⟨pre, hp, hl⟩ := h2 (by omega)
    refine ⟨pre, ?_, by omega⟩
    rw [dispatch_eq, hp]
    have : ((0 + p.RetryMax.toNat : Nat) : Int) = p.RetryMax := by omega
    rw [this]
    simp

/-- C15 (amended) at a concrete input: two failing attempts with a base delay of 300 ms. -/
theorem C15_wait_after_every_failed_attempt_witness :
    sleeps (dispatch ⟨1, 2, 300 * Millisecond⟩
        (scriptedEnv fun _ => some (Error.New "ES down")) msg1) =
      (List.range' 1 2).map (fun k => Duration.mul (300 * Millisecond) (k : Int)) :=
  (C15_wait_after_every_failed_attempt ⟨1, 2, 300 * Millisecond⟩
    (scriptedEnv fun _ => some (Error.New "ES down")) msg1 (by decide)
    (fun k _ _ => by simp [outcome, scriptedEnv, constService])).1

/-- C16: when `RetryMax <= 0` the goroutine makes a single call, the commit of its message:
no call of `Process`, no wait. -/
theorem C16_no_attempt_still_committed (p : Processor) (env : Env) (m : Message)
    (h : p.RetryMax ≤ 0) :
    dispatch p env m = [Event.CommitMessage m] ∧
    processed (dispatch p env m) = [] ∧ sleeps (dispatch p env m) = [] ∧
    committed (dispatch p env m) = [m] := by
  have hd : dispatch p env m = [Event.CommitMessage m] := by
    rw [dispatch_eq, retryLoop_stop p env (entryOf m) _ 0 (by push_cast; omega)]
    rfl
  rw [hd]
  exact ⟨rfl, rfl, rfl, rfl⟩

/-- C16 at a concrete input: `RetryMax = 0` and `RetryMax = -4`. -/
theorem C16_no_attempt_still_committed_witness :
    dispatch ⟨1, 0, 300 * Millisecond⟩ okEnv msg1 = [Event.CommitMessage msg1] ∧
    dispatch ⟨1, -4, 300 * Millisecond⟩ okEnv msg1 = [Event.CommitMessage msg1] :=
  ⟨(C16_no_attempt_still_committed ⟨1, 0, 300 * Millisecond⟩ okEnv msg1 (by decide)).1,
   (C16_no_attempt_still_committed ⟨1, -4, 300 * Millisecond⟩ okEnv msg1 (by decide)).1⟩

end LogProcessor
